import Mathlib

/-!
# Duplicate-file finder: a shallow embedding and its verification

The development follows `src/concurrent03/main.go` (the bounded fan-out
variant) and, for the visit callback, `src/sequential/main.go`.

* Go `string` values that hold paths are Lean `String`s; file contents are
  byte lists.  The digest string `string(hash.Sum(nil))` is the 16 digest
  bytes read as a string.
* The Go `map[string]fileList` is an association list with unique keys in
  first-insertion order (`hashes[k]` is `mapGet`, `hashes[k] = v` is `mapPut`).
* Goroutines are tasks with a program counter; one step of the scheduler
  runs one statement of one task (`step`).  Channels and the `WaitGroup`
  are counters in the shared state.
* The file system is a tree of `Node`s that does not change during a scan.
-/

namespace FileDup

/-! ## Library layer: `crypto/md5` -/

/-- Contents of a file: a sequence of bytes. -/
abbrev Bytes := List (Fin 256)

/-- Per-round left-rotation amounts of MD5. -/
def md5S : List Nat :=
  [7, 12, 17, 22, 7, 12, 17, 22, 7, 12, 17, 22, 7, 12, 17, 22,
   5, 9, 14, 20, 5, 9, 14, 20, 5, 9, 14, 20, 5, 9, 14, 20,
   4, 11, 16, 23, 4, 11, 16, 23, 4, 11, 16, 23, 4, 11, 16, 23,
   6, 10, 15, 21, 6, 10, 15, 21, 6, 10, 15, 21, 6, 10, 15, 21]

/-- Per-round additive constants of MD5. -/
def md5K : List Nat :=
  [0xd76aa478, 0xe8c7b756, 0x242070db, 0xc1bdceee,
   0xf57c0faf, 0x4787c62a, 0xa8304613, 0xfd469501,
   0x698098d8, 0x8b44f7af, 0xffff5bb1, 0x895cd7be,
   0x6b901122, 0xfd987193, 0xa679438e, 0x49b40821,
   0xf61e2562, 0xc040b340, 0x265e5a51, 0xe9b6c7aa,
   0xd62f105d, 0x02441453, 0xd8a1e681, 0xe7d3fbc8,
   0x21e1cde6, 0xc33707d6, 0xf4d50d87, 0x455a14ed,
   0xa9e3e905, 0xfcefa3f8, 0x676f02d9, 0x8d2a4c8a,
   0xfffa3942, 0x8771f681, 0x6d9d6122, 0xfde5380c,
   0xa4beea44, 0x4bdecfa9, 0xf6bb4b60, 0xbebfbc70,
   0x289b7ec6, 0xeaa127fa, 0xd4ef3085, 0x04881d05,
   0xd9d4d039, 0xe6db99e5, 0x1fa27cf8, 0xc4ac5665,
   0xf4292244, 0x432aff97, 0xab9423a7, 0xfc93a039,
   0x655b59c3, 0x8f0ccc92, 0xffeff47d, 0x85845dd1,
   0x6fa87e4f, 0xfe2ce6e0, 0xa3014314, 0x4e0811a1,
   0xf7537e82, 0xbd3af235, 0x2ad7d2bb, 0xeb86d391]

/-- Modulus of 32-bit words. -/
def w32 : Nat := 2 ^ 32

/-- Left rotation of a 32-bit word. -/
def rotl32 (x n : Nat) : Nat := ((x <<< n) ||| (x >>> (32 - n))) % w32

/-- Bitwise complement of a 32-bit word. -/
def not32 (x : Nat) : Nat := (w32 - 1) ^^^ x

/-- Little-endian 32-bit words of a byte sequence. -/
def leWords : List Nat → List Nat
  | a :: b :: c :: d :: rest => (a + 256 * b + 65536 * c + 16777216 * d) :: leWords rest
  | _ => []

/-- The `n` low bytes of `x`, least significant first. -/
def leBytes (n : Nat) (x : Nat) : List Nat :=
  (List.range n).map (fun i => (x >>> (8 * i)) % 256)

/-- MD5 padding: a `0x80` byte, zeros up to 56 mod 64, then the bit length on 8 bytes. -/
def md5Pad (msg : List Nat) : List Nat :=
  msg ++ [0x80] ++ List.replicate ((119 - msg.length % 64) % 64) 0
    ++ leBytes 8 ((8 * msg.length) % 2 ^ 64)

/-- The four chaining words of MD5. -/
structure Md5State where
  a : Nat
  b : Nat
  c : Nat
  d : Nat
deriving DecidableEq, Repr

/-- One of the 64 operations of the MD5 compression function on block `m`. -/
def md5Round (m : List Nat) (st : Md5State) (i : Nat) : Md5State :=
  let f := if i < 16 then (st.b &&& st.c) ||| (not32 st.b &&& st.d)
    else if i < 32 then (st.d &&& st.b) ||| (not32 st.d &&& st.c)
    else if i < 48 then st.b ^^^ st.c ^^^ st.d
    else st.c ^^^ (st.b ||| not32 st.d)
  let g := if i < 16 then i
    else if i < 32 then (5 * i + 1) % 16
    else if i < 48 then (3 * i + 5) % 16
    else (7 * i) % 16
  let f2 := (f + st.a + md5K.getD i 0 + m.getD g 0) % w32
  { a := st.d, d := st.c, c := st.b, b := (st.b + rotl32 f2 (md5S.getD i 0)) % w32 }

/-- The MD5 compression function on one 16-word block. -/
def md5Block (st : Md5State) (m : List Nat) : Md5State :=
  let r := (List.range 64).foldl (md5Round m) st
  { a := (st.a + r.a) % w32, b := (st.b + r.b) % w32,
    c := (st.c + r.c) % w32, d := (st.d + r.d) % w32 }

/-- Compression of `n` consecutive blocks. -/
def md5Blocks : Nat → Md5State → List Nat → Md5State
  | 0, st, _ => st
  | n + 1, st, ws => md5Blocks n (md5Block st (ws.take 16)) (ws.drop 16)

/-- Initial chaining value of MD5. -/
def md5Init : Md5State :=
  { a := 0x67452301, b := 0xefcdab89, c := 0x98badcfe, d := 0x10325476 }

/-- The 16 digest bytes: `h := md5.New(); io.Copy(h, file); h.Sum(nil)`. -/
def md5Sum (msg : Bytes) : List Nat :=
  let ws := leWords (md5Pad (msg.map Fin.val))
  let st := md5Blocks (ws.length / 16) md5Init ws
  leBytes 4 st.a ++ leBytes 4 st.b ++ leBytes 4 st.c ++ leBytes 4 st.d

/-- Go conversion `string(bytes)`: one character per byte. -/
def goString (bs : List Nat) : String := String.mk (bs.map Char.ofNat)

/-! ## Data model (`pair`, `fileList`, `results`) -/

/-- Go `type pair struct { hash, path string }`. -/
structure pair where
  hash : String
  path : String
deriving DecidableEq, Repr

/-- Go `type fileList []string`. -/
abbrev fileList := List String

/-- Go `type results map[string]fileList`, as an association list with unique keys. -/
abbrev results := List (String × fileList)

/-- Map read `m[k]`: the stored value, or the zero value (nil slice) when the key is absent. -/
def mapGet : results → String → fileList
  | [], _ => []
  | (k', v) :: rest, k => if k' = k then v else mapGet rest k

/-- Map write `m[k] = v`: replaces the value of an existing key, else adds the key. -/
def mapPut : results → String → fileList → results
  | [], k, v => [(k, v)]
  | (k', v') :: rest, k, v => if k' = k then (k, v) :: rest else (k', v') :: mapPut rest k v

/-- The keys of a map. -/
def keys (m : results) : List String := m.map Prod.fst

/-- All paths stored in a map, group after group. -/
def allPaths : results → List String
  | [] => []
  | (_, files) :: rest => files ++ allPaths rest

/-! ## The Aggregator (`collectHashes`) and the report loop of `main` -/

/-- Loop body of `collectHashes`: `hashes[pair.hash] = append(hashes[pair.hash], pair.path)`. -/
def collectStep (hashes : results) (p : pair) : results :=
  mapPut hashes p.hash (mapGet hashes p.hash ++ [p.path])

/-- The Aggregator `collectHashes`: `pairs` is the sequence of values received on the channel
before it is closed; the value is the map sent on `result`. -/
def collectHashes (pairs : List pair) : results :=
  pairs.foldl collectStep []

/-- One group printed by `main`: the count of `number of files: %d` and the lines that follow. -/
structure Printed where
  count : Nat
  files : List String
deriving DecidableEq, Repr

/-- The report loop of `main`: `for _, files := range r { if len(files) > 1 { ... } }`. -/
def report : results → List Printed
  | [] => []
  | (_, files) :: rest =>
    if files.length > 1 then { count := files.length, files := files } :: report rest
    else report rest

/-! ## The file system seen by `os.Lstat`, `os.Open` and `filepath.Walk` -/

/-- System error numbers that file operations fail with. -/
inductive Errno
  | ENOENT
  | EACCES
  | EIO
  | EISDIR
deriving DecidableEq, Repr

/-- Go `error` values that reach the program: the sentinels `os.ErrNotExist` and
`filepath.SkipDir`, and the `*fs.PathError` values that file operations return. -/
inductive GoError
  | ErrNotExist
  | SkipDir
  | PathError (op : String) (path : String) (errno : Errno)
deriving DecidableEq, Repr

/-- What a Go function call ends with: it returns an `error` (`none` is `nil`), or it panics. -/
inductive Outcome
  | returned (err : Option GoError)
  | panicked
deriving DecidableEq, Repr

/-- The type bits of `os.FileMode`. -/
inductive FileMode
  | regular
  | dir
  | irregular
deriving DecidableEq, Repr

/-- The part of `os.FileInfo` the program reads. -/
structure FileInfo where
  mode : FileMode
  size : Nat
deriving DecidableEq, Repr

/-- Go `fi.IsDir()`. -/
def FileInfo.IsDir (fi : FileInfo) : Bool := decide (fi.mode = FileMode.dir)

/-- Go `fi.Mode().IsRegular()`. -/
def FileInfo.IsRegular (fi : FileInfo) : Bool := decide (fi.mode = FileMode.regular)

/-- What opening and reading a file gives. -/
inductive FileData
  | openFails (errno : Errno)
  | readFails (errno : Errno)
  | content (bytes : Bytes)
deriving DecidableEq, Repr

/-- A directory entry with everything below it: an entry whose `lstat` fails, a
non-directory (regular or not) with its size and data, or a directory with the
outcome of listing it and its entries.  The entries of a directory are in the order in which
`readDirNames` returns their names, that is sorted by name (`sortedTree`). -/
inductive Node where
  | gone (name : String) (errno : Errno)
  | file (name : String) (regular : Bool) (size : Nat) (data : FileData)
  | dir (name : String) (listErr : Option Errno) (entries : List Node)

/-- The name of an entry inside its directory (for the root: the path given on the command line). -/
def Node.name : Node → String
  | .gone name _ => name
  | .file name _ _ _ => name
  | .dir name _ _ => name

/-- Go `os.Lstat(path)` on the entry found at `path`. -/
def lstat (path : String) : Node → Except GoError FileInfo
  | .gone _ errno => .error (.PathError "lstat" path errno)
  | .file _ regular size _ =>
    .ok { mode := if regular then FileMode.regular else FileMode.irregular, size := size }
  | .dir _ _ _ => .ok { mode := FileMode.dir, size := 0 }

/-- Go `filepath.Join(dir, name)` for an entry name and a directory path that is clean, does
not end in a separator and is not `.`: for such a path joining only inserts the separator
(the path given on the command line is taken to be of that form). -/
def Join (dir name : String) : String := dir ++ "/" ++ name

/-- Lexical order of two sequences of character codes. -/
def codesLt : List Nat → List Nat → Bool
  | [], [] => false
  | [], _ :: _ => true
  | _ :: _, [] => false
  | a :: as, b :: bs => decide (a < b) || (decide (a = b) && codesLt as bs)

/-- The order in which `readDirNames` sorts two names (`sort.Strings`): Go compares strings
byte by byte, which for UTF-8 is the lexical order of the character codes. -/
def nameLt (a b : String) : Bool := codesLt (a.data.map Char.toNat) (b.data.map Char.toNat)

/-- The names are strictly increasing. -/
def namesIncreasing : List String → Bool
  | a :: b :: rest => nameLt a b && namesIncreasing (b :: rest)
  | _ => true

mutual
/-- In every directory of the tree the entries are in the order of `readDirNames`: their
names are strictly increasing. -/
def sortedTree : Node → Bool
  | .dir _ _ entries => namesIncreasing (entries.map Node.name) && sortedEntries entries
  | _ => true
/-- All entries of a directory are sorted trees. -/
def sortedEntries : List Node → Bool
  | [] => true
  | n :: rest => sortedTree n && sortedEntries rest
end

/-! ## The Hasher (`hashFile`) -/

/-- Go `hashFile(path)` on the entry found at `path`: the returned pair and error.
On either failure the pair is the zero value `pair{}`. -/
def hashFile (n : Node) (path : String) : pair × Option GoError :=
  match n with
  | .gone _ errno => ({ hash := "", path := "" }, some (.PathError "open" path errno))
  | .dir _ _ _ => ({ hash := "", path := "" }, some (.PathError "read" path Errno.EISDIR))
  | .file _ _ _ (.openFails errno) => ({ hash := "", path := "" }, some (.PathError "open" path errno))
  | .file _ _ _ (.readFails errno) => ({ hash := "", path := "" }, some (.PathError "read" path errno))
  | .file _ _ _ (.content bytes) => ({ hash := goString (md5Sum bytes), path := path }, none)

/-- Does `os.Open(path)` inside `hashFile` succeed on this entry. -/
def opens : Node → Bool
  | .gone _ _ => false
  | .dir _ _ _ => true
  | .file _ _ _ (.openFails _) => false
  | .file _ _ _ _ => true

/-! ## `filepath.Walk` -/

/-- Go `filepath.WalkFunc`, threading the state `σ` that the callback mutates.  The callback
also receives the entry found at the path it is called with, which the file operations made
on that path go to. -/
def WalkFunc (σ : Type) : Type :=
  Node → String → Option FileInfo → Option GoError → σ → σ × Outcome

mutual
/-- Go `walk(path, info, walkFn)`: a non-directory is handed to the callback; a directory is
listed first, handed to the callback with the listing error, and then walked name by name. -/
def walk {σ : Type} (fn : WalkFunc σ) (path : String) (info : FileInfo) (st : σ) :
    Node → σ × Outcome
  | .dir name listErr entries =>
    if !info.IsDir then fn (.dir name listErr entries) path (some info) none st
    else
      let r := fn (.dir name listErr entries) path (some info)
        (listErr.map (GoError.PathError "open" path)) st
      if listErr.isSome || r.2 != Outcome.returned none then r
      else walkNames fn path r.1 entries
  | n => fn n path (some info) none st
/-- The loop `for _, name := range names` of `walk`.  The entries are visited in the order of
the list, which for a `sortedTree` is the sorted order in which `readDirNames` returns the
names. -/
def walkNames {σ : Type} (fn : WalkFunc σ) (path : String) (st : σ) : List Node → σ × Outcome
  | [] => (st, Outcome.returned none)
  | n :: rest =>
    match lstat (Join path n.name) n with
    | .error err =>
      let r := fn n (Join path n.name) none (some err) st
      if r.2 != Outcome.returned none && r.2 != Outcome.returned (some GoError.SkipDir) then r
      else walkNames fn path r.1 rest
    | .ok fileInfo =>
      let r := walk fn (Join path n.name) fileInfo st n
      if r.2 != Outcome.returned none
          && (!fileInfo.IsDir || r.2 != Outcome.returned (some GoError.SkipDir)) then r
      else walkNames fn path r.1 rest
end

/-- Go `filepath.Walk(root, fn)`: `SkipDir` from the root is turned into `nil`. -/
def Walk {σ : Type} (fn : WalkFunc σ) (root : String) (st : σ) (n : Node) : σ × Outcome :=
  let r := match lstat root n with
    | .error err => fn n root none (some err) st
    | .ok info => walk fn root info st n
  if r.2 = Outcome.returned (some GoError.SkipDir) then (r.1, Outcome.returned none) else r

/-! ## The sequential variant (`src/sequential/main.go`) -/

namespace Sequential

/-- The closure `visit` of the sequential `walkDir`; the state is the map `hashes`. -/
def visit : WalkFunc results := fun n p fi err hashes =>
  if err ≠ none ∧ err ≠ some GoError.ErrNotExist then (hashes, Outcome.returned err)
  else
    match fi with
    | none => (hashes, Outcome.panicked)
    | some fi =>
      if fi.IsRegular && decide (fi.size > 0) then
        match hashFile n p with
        | (_, some e) => (hashes, Outcome.returned (some e))
        | (h, none) => (mapPut hashes h.hash (mapGet hashes h.hash ++ [h.path]), Outcome.returned none)
      else (hashes, Outcome.returned none)

end Sequential

/-! ## The bounded fan-out variant (`src/concurrent03/main.go`) -/

namespace Concurrent03

/-- A pair of statements `wg.Add(1); go f(p, pairs, limit, wg)` of `visit`, with the entry
found at `p`. -/
inductive Spawn where
  | walkDir (p : String) (n : Node)
  | processFile (p : String) (n : Node)

/-- The closure `visit` of `walkDir(dir, ...)`; the state is the sequence of spawns made. -/
def visit (dir : String) : WalkFunc (List Spawn) := fun n p fi err spawned =>
  if err ≠ none ∧ err ≠ some GoError.ErrNotExist then (spawned, Outcome.returned err)
  else
    match fi with
    | none => (spawned, Outcome.panicked)
    | some fi =>
      if fi.IsDir && p != dir then
        (spawned ++ [Spawn.walkDir p n], Outcome.returned (some GoError.SkipDir))
      else if fi.IsRegular && decide (fi.size > 0) then
        (spawned ++ [Spawn.processFile p n], Outcome.returned none)
      else (spawned, Outcome.returned none)

/-- A goroutine running `walkDir` or `processFile`, at one of its program points.

* `walkDir0`: entered (`defer wg.Done()` registered), before `limit <- struct{}{}`;
* `walkDir1 todo ret`: token held, inside `filepath.Walk`, before the next `wg.Add(1)`:
  `todo` are the spawns still to make, `ret` is what `filepath.Walk` returns;
* `walkDir1go sp todo ret`: `wg.Add(1)` done for the spawn `sp`, before its `go` statement;
* `walkDir2 ret`: deferred `<-limit` done, before the deferred `wg.Done()`;
* `processFile0`: entered, before `limit <- struct{}{}`;
* `processFile1`: token held, inside `hashFile` before `os.Open`;
* `processFile2`: inside `hashFile` with the file open (`io.Copy`);
* `processFile3 p`: `hashFile` returned, before `pairs <- p`;
* `processFile4`: pair sent, before the deferred `<-limit`;
* `processFile5`: token given back, before the deferred `wg.Done()`;
* `exited ret`: returned. -/
inductive Task where
  | walkDir0 (dir : String) (n : Node)
  | walkDir1 (todo : List Spawn) (ret : Outcome)
  | walkDir1go (sp : Spawn) (todo : List Spawn) (ret : Outcome)
  | walkDir2 (ret : Outcome)
  | processFile0 (path : String) (n : Node)
  | processFile1 (path : String) (n : Node)
  | processFile2 (path : String) (n : Node)
  | processFile3 (p : pair)
  | processFile4
  | processFile5
  | exited (ret : Outcome)

/-- The goroutine that `go f(...)` starts. -/
def spawnTask : Spawn → Task
  | .walkDir p n => .walkDir0 p n
  | .processFile p n => .processFile0 p n

/-- Program points of `main` from `wg.Add(1)` on.

* `add`: before `wg.Add(1)`; `call`: before the call `walkDir(os.Args[1], ...)`;
* `walking`: inside that call; `fatal err`: `log.Fatalf` has ended the process;
* `wait`: at `wg.Wait()`; `close`: before `close(pairs)`; `recv`: before `r := <-result`;
* `print`: before the report loop; `done`: report printed;
* `crashed`: a goroutine panicked. -/
inductive Main where
  | add
  | call
  | walking
  | fatal (err : GoError)
  | wait
  | close
  | recv
  | print
  | done
  | crashed
deriving DecidableEq, Repr

/-- Shared state of a run: the `WaitGroup` counter, the number of tokens in the buffered
channel `limit`, the goroutines started so far, the values sent on `pairs`, whether `pairs`
is closed, the map received from `result`, the report printed, and where `main` is. -/
structure State where
  wg : Nat
  limit : Nat
  tasks : List Task
  pairs : List pair
  closed : Bool
  r : Option results
  out : Option (List Printed)
  main : Main

/-- State of `main` after `go collectHashes(pairs, result)`. -/
def init : State :=
  { wg := 0, limit := 0, tasks := [], pairs := [], closed := false, r := none, out := none,
    main := Main.add }

/-- Is the process still running. -/
def Main.alive : Main → Bool
  | .fatal _ => false
  | .done => false
  | .crashed => false
  | _ => true

/-- One statement of `main`.  `wg.Wait()` only proceeds when the counter is zero, the return
from `walkDir` only when the root Walker has exited. -/
def stepMain (root : Node) (s : State) : Option State :=
  match s.main with
  | .add => some { s with wg := s.wg + 1, main := Main.call }
  | .call => some { s with tasks := s.tasks ++ [Task.walkDir0 root.name root], main := Main.walking }
  | .walking =>
    match s.tasks.head? with
    | some (.exited (.returned none)) => some { s with main := Main.wait }
    | some (.exited (.returned (some err))) => some { s with main := Main.fatal err }
    | _ => none
  | .wait => if s.wg = 0 then some { s with main := Main.close } else none
  | .close => some { s with closed := true, main := Main.recv }
  | .recv => some { s with r := some (collectHashes s.pairs), main := Main.print }
  | .print => some { s with out := s.r.map report, main := Main.done }
  | _ => none

/-- One statement of goroutine `i`.  A send on the full channel `limit` and a receive from the
empty one do not proceed; `wg.Done()` at zero, a send on the closed `pairs` and a panic inside
`filepath.Walk` crash the process. -/
def stepTask (K : Nat) (s : State) (i : Nat) : Option State :=
  if !s.main.alive then none
  else
    match s.tasks[i]? with
    | none => none
    | some (.walkDir0 dir n) =>
      if s.limit < K then
        let w := Walk (visit dir) dir [] n
        some { s with limit := s.limit + 1, tasks := s.tasks.set i (.walkDir1 w.1 w.2) }
      else none
    | some (.walkDir1 (sp :: todo) ret) =>
      some { s with wg := s.wg + 1, tasks := s.tasks.set i (.walkDir1go sp todo ret) }
    | some (.walkDir1go sp todo ret) =>
      some { s with tasks := s.tasks.set i (.walkDir1 todo ret) ++ [spawnTask sp] }
    | some (.walkDir1 [] ret) =>
      if s.limit = 0 then none
      else some { s with limit := s.limit - 1, tasks := s.tasks.set i (.walkDir2 ret) }
    | some (.walkDir2 ret) =>
      if s.wg = 0 then some { s with main := Main.crashed }
      else if ret = Outcome.panicked then
        some { s with wg := s.wg - 1, tasks := s.tasks.set i (.exited ret), main := Main.crashed }
      else some { s with wg := s.wg - 1, tasks := s.tasks.set i (.exited ret) }
    | some (.processFile0 path n) =>
      if s.limit < K then
        some { s with limit := s.limit + 1, tasks := s.tasks.set i (.processFile1 path n) }
      else none
    | some (.processFile1 path n) =>
      if opens n then some { s with tasks := s.tasks.set i (.processFile2 path n) }
      else some { s with tasks := s.tasks.set i (.processFile3 (hashFile n path).1) }
    | some (.processFile2 path n) =>
      some { s with tasks := s.tasks.set i (.processFile3 (hashFile n path).1) }
    | some (.processFile3 p) =>
      if s.closed then some { s with main := Main.crashed }
      else some { s with pairs := s.pairs ++ [p], tasks := s.tasks.set i .processFile4 }
    | some .processFile4 =>
      if s.limit = 0 then none
      else some { s with limit := s.limit - 1, tasks := s.tasks.set i .processFile5 }
    | some .processFile5 =>
      if s.wg = 0 then some { s with main := Main.crashed }
      else some { s with wg := s.wg - 1, tasks := s.tasks.set i (.exited (.returned none)) }
    | some (.exited _) => none

/-- Who takes the next step: `main` or goroutine `i`. -/
inductive Actor where
  | main
  | task (i : Nat)
deriving DecidableEq, Repr

/-- One step of the scheduler, with Limiter capacity `K` on the tree `root`. -/
def step (K : Nat) (root : Node) (s : State) : Actor → Option State
  | .main => stepMain root s
  | .task i => stepTask K s i

/-- A run under a schedule; `none` when the schedule picks an actor that cannot proceed. -/
def run (K : Nat) (root : Node) (s : State) : List Actor → Option State
  | [] => some s
  | a :: sched => (step K root s a).bind (fun s' => run K root s' sched)

/-- The states a run can be in. -/
def Reachable (K : Nat) (root : Node) (s : State) : Prop :=
  ∃ sched, run K root init sched = some s

/-- A fair deterministic scheduler: `main` when it can proceed, else the first goroutine
that can. -/
def pick (K : Nat) (root : Node) (s : State) : Option State :=
  match stepMain root s with
  | some s' => some s'
  | none => (List.range s.tasks.length).findSome? (stepTask K s)

/-- The run of the deterministic scheduler for at most `fuel` steps. -/
def exec (K : Nat) (root : Node) : Nat → State → State
  | 0, s => s
  | fuel + 1, s =>
    match pick K root s with
    | some s' => exec K root fuel s'
    | none => s

/-- The state after a schedule from the initial state; the initial state when the schedule
cannot be run. -/
def stateAfter (K : Nat) (root : Node) (sched : List Actor) : State :=
  (run K root init sched).getD init

end Concurrent03

/-! ## Concrete inputs used by the closed statements -/

/-- First message of a published MD5 collision (128 bytes). -/
def collisionA : Bytes := [
  0xd1, 0x31, 0xdd, 0x02, 0xc5, 0xe6, 0xee, 0xc4, 0x69, 0x3d, 0x9a, 0x06, 0x98, 0xaf, 0xf9, 0x5c,
  0x2f, 0xca, 0xb5, 0x87, 0x12, 0x46, 0x7e, 0xab, 0x40, 0x04, 0x58, 0x3e, 0xb8, 0xfb, 0x7f, 0x89,
  0x55, 0xad, 0x34, 0x06, 0x09, 0xf4, 0xb3, 0x02, 0x83, 0xe4, 0x88, 0x83, 0x25, 0x71, 0x41, 0x5a,
  0x08, 0x51, 0x25, 0xe8, 0xf7, 0xcd, 0xc9, 0x9f, 0xd9, 0x1d, 0xbd, 0xf2, 0x80, 0x37, 0x3c, 0x5b,
  0xd8, 0x82, 0x3e, 0x31, 0x56, 0x34, 0x8f, 0x5b, 0xae, 0x6d, 0xac, 0xd4, 0x36, 0xc9, 0x19, 0xc6,
  0xdd, 0x53, 0xe2, 0xb4, 0x87, 0xda, 0x03, 0xfd, 0x02, 0x39, 0x63, 0x06, 0xd2, 0x48, 0xcd, 0xa0,
  0xe9, 0x9f, 0x33, 0x42, 0x0f, 0x57, 0x7e, 0xe8, 0xce, 0x54, 0xb6, 0x70, 0x80, 0xa8, 0x0d, 0x1e,
  0xc6, 0x98, 0x21, 0xbc, 0xb6, 0xa8, 0x83, 0x93, 0x96, 0xf9, 0x65, 0x2b, 0x6f, 0xf7, 0x2a, 0x70]

/-- Second message of the collision: differs from the first in six bytes. -/
def collisionB : Bytes := [
  0xd1, 0x31, 0xdd, 0x02, 0xc5, 0xe6, 0xee, 0xc4, 0x69, 0x3d, 0x9a, 0x06, 0x98, 0xaf, 0xf9, 0x5c,
  0x2f, 0xca, 0xb5, 0x07, 0x12, 0x46, 0x7e, 0xab, 0x40, 0x04, 0x58, 0x3e, 0xb8, 0xfb, 0x7f, 0x89,
  0x55, 0xad, 0x34, 0x06, 0x09, 0xf4, 0xb3, 0x02, 0x83, 0xe4, 0x88, 0x83, 0x25, 0xf1, 0x41, 0x5a,
  0x08, 0x51, 0x25, 0xe8, 0xf7, 0xcd, 0xc9, 0x9f, 0xd9, 0x1d, 0xbd, 0x72, 0x80, 0x37, 0x3c, 0x5b,
  0xd8, 0x82, 0x3e, 0x31, 0x56, 0x34, 0x8f, 0x5b, 0xae, 0x6d, 0xac, 0xd4, 0x36, 0xc9, 0x19, 0xc6,
  0xdd, 0x53, 0xe2, 0x34, 0x87, 0xda, 0x03, 0xfd, 0x02, 0x39, 0x63, 0x06, 0xd2, 0x48, 0xcd, 0xa0,
  0xe9, 0x9f, 0x33, 0x42, 0x0f, 0x57, 0x7e, 0xe8, 0xce, 0x54, 0xb6, 0x70, 0x80, 0x28, 0x0d, 0x1e,
  0xc6, 0x98, 0x21, 0xbc, 0xb6, 0xa8, 0x83, 0x93, 0x96, 0xf9, 0x65, 0xab, 0x6f, 0xf7, 0x2a, 0x70]

/-- The common digest `79054025255fb1a26e4bc422aef54eb4` of the two messages. -/
def collisionDigest : List Nat :=
  [0x79, 0x05, 0x40, 0x25, 0x25, 0x5f, 0xb1, 0xa2, 0x6e, 0x4b, 0xc4, 0x22, 0xae, 0xf5, 0x4e, 0xb4]

/-- Two pairs are in the same group of a map: some entry lists both paths. -/
def sameGroup (m : results) (x y : pair) : Prop :=
  ∃ e ∈ m, x.path ∈ e.2 ∧ y.path ∈ e.2

/-- Directory `r` with two regular files that cannot be hashed: `a` fails to open,
`c` fails while being read. -/
def unreadableTree : Node :=
  .dir "r" none [
    .file "a" true 5 (.openFails Errno.EACCES),
    .file "c" true 5 (.readFails Errno.EIO)]

/-- Directory `r` with files `a` and `c` of equal content and a subdirectory `s` that holds
a directory `t` that cannot be listed, followed by a file `u` of the same content. -/
def brokenSubdirTree : Node :=
  .dir "r" none [
    .file "a" true 5 (.content [1, 2, 3, 4, 5]),
    .file "c" true 5 (.content [1, 2, 3, 4, 5]),
    .dir "s" none [.dir "t" (some Errno.EACCES) [], .file "u" true 5 (.content [1, 2, 3, 4, 5])]]

/-- Directory `r` with files `a` and `c` of equal content and a subdirectory `s` that cannot
be listed. -/
def unlistableDirTree : Node :=
  .dir "r" none [
    .file "a" true 5 (.content [1, 2, 3, 4, 5]),
    .file "c" true 5 (.content [1, 2, 3, 4, 5]),
    .dir "s" (some Errno.EACCES) []]

/-- Directory `r` with a file `a`, a file `c` of another content, a non-regular entry `l`, and
a subdirectory `x` with a file `b` of the content of `a` and an empty file `z`. -/
def sampleTree : Node :=
  .dir "r" none [
    .file "a" true 1 (.content [1]),
    .file "c" true 1 (.content [2]),
    .file "l" false 1 (.content [1]),
    .dir "x" none [.file "b" true 1 (.content [1]), .file "z" true 0 (.content [])]]

/-! ## Accounting over the goroutines of a state -/

namespace Concurrent03

/-- Counts 1 for a goroutine that has been started and whose deferred `wg.Done()` has not run. -/
def Task.running : Task → Nat
  | .exited _ => 0
  | _ => 1

/-- Counts 1 for a goroutine that has done `wg.Add(1)` for a task whose `go` statement it has
not executed yet. -/
def Task.registering : Task → Nat
  | .walkDir1go _ _ _ => 1
  | _ => 0

/-- Counts 1 for `main` between its `wg.Add(1)` and the call of the root Walker. -/
def Main.registering : Main → Nat
  | .call => 1
  | _ => 0

/-- Tokens of `limit` that a goroutine has sent and not yet received back. -/
def Task.tokens : Task → Nat
  | .walkDir1 _ _ => 1
  | .walkDir1go _ _ _ => 1
  | .processFile1 _ _ => 1
  | .processFile2 _ _ => 1
  | .processFile3 _ => 1
  | .processFile4 => 1
  | _ => 0

/-- Counts 1 for a Hasher inside `hashFile` (between entering it and its return). -/
def Task.hashing : Task → Nat
  | .processFile1 _ _ => 1
  | .processFile2 _ _ => 1
  | _ => 0

/-- Counts 1 for a Hasher that has its file open. -/
def Task.fileOpen : Task → Nat
  | .processFile2 _ _ => 1
  | _ => 0

/-- Sum of a count over the goroutines. -/
def total (f : Task → Nat) (ts : List Task) : Nat := (ts.map f).sum

/-- The tasks whose `wg.Add(1)` is done and whose `wg.Done()` is not: those spawned and not
yet completed, and those registered by a `wg.Add(1)` whose `go` statement (for the root
Walker: whose call) comes next. -/
def outstanding (s : State) : Nat :=
  total Task.running s.tasks + total Task.registering s.tasks + s.main.registering

/-- Has `main` passed `wg.Wait()`. -/
def Main.pastWait : Main → Bool
  | .close => true
  | .recv => true
  | .print => true
  | .done => true
  | _ => false

/-- Has `main` called the root Walker. -/
def Main.called : Main → Bool
  | .add => false
  | .call => false
  | _ => true

/-- Invariant of the step relation about the counter, the Limiter and the closing of `pairs`. -/
structure Inv (K : Nat) (s : State) : Prop where
  wg_eq : s.wg = outstanding s
  limit_eq : s.limit = total Task.tokens s.tasks
  limit_le : s.limit ≤ K
  closed_past : s.closed = true → s.main.pastWait = true
  past_wg : s.main.pastWait = true → s.wg = 0
  not_called : s.main.called = false → s.tasks = []

end Concurrent03

/-! ## What a Walker spawns, in closed form -/

namespace Concurrent03

/-- The spawns made for the entries of the directory `dir` in order, up to the first entry that
makes the walk stop, and what the walk returns: an entry whose `lstat` fails and a
subdirectory that cannot be listed stop the walk with their error; a subdirectory spawns a
Walker, a regular non-empty file spawns a Hasher, anything else is skipped. -/
def entrySpawns (dir : String) : List Node → List Spawn × Outcome
  | [] => ([], Outcome.returned none)
  | .gone name errno :: _ =>
    ([], Outcome.returned (some (GoError.PathError "lstat" (Join dir name) errno)))
  | .file name regular size data :: rest =>
    if regular && decide (size > 0) then
      (Spawn.processFile (Join dir name) (.file name regular size data) :: (entrySpawns dir rest).1,
        (entrySpawns dir rest).2)
    else entrySpawns dir rest
  | .dir name (some errno) _ :: _ =>
    ([], Outcome.returned (some (GoError.PathError "open" (Join dir name) errno)))
  | .dir name none entries :: rest =>
    (Spawn.walkDir (Join dir name) (.dir name none entries) :: (entrySpawns dir rest).1,
      (entrySpawns dir rest).2)

/-- The spawns of `walkDir(dir, ...)` on the entry found at `dir`, and what it returns. -/
def rootSpawns (dir : String) : Node → List Spawn × Outcome
  | .gone _ errno => ([], Outcome.returned (some (GoError.PathError "lstat" dir errno)))
  | .file name regular size data =>
    if regular && decide (size > 0) then
      ([Spawn.processFile dir (.file name regular size data)], Outcome.returned none)
    else ([], Outcome.returned none)
  | .dir _ (some errno) _ => ([], Outcome.returned (some (GoError.PathError "open" dir errno)))
  | .dir _ none entries => entrySpawns dir entries

end Concurrent03

/-! ## What a run is expected to produce -/

mutual
/-- Paths of the regular files of size greater than 0 in the tree below the entry found at
`path`, at any depth. -/
def regularFiles (path : String) : Node → List String
  | .gone _ _ => []
  | .file _ regular size _ => if regular && decide (size > 0) then [path] else []
  | .dir _ _ entries => regularFilesIn path entries
/-- Paths of the regular non-empty files below the entries of the directory at `path`. -/
def regularFilesIn (path : String) : List Node → List String
  | [] => []
  | n :: rest => regularFiles (Join path n.name) n ++ regularFilesIn path rest
end

mutual
/-- Every file of the tree, at any depth, can be opened and read; nothing is asked of the
directories. -/
def filesReadable : Node → Bool
  | .gone _ _ => false
  | .file _ _ _ (.content _) => true
  | .file _ _ _ _ => false
  | .dir _ _ entries => filesReadableAll entries
/-- Every file below the entries of a directory can be opened and read. -/
def filesReadableAll : List Node → Bool
  | [] => true
  | n :: rest => filesReadable n && filesReadableAll rest
end

mutual
/-- Every entry of the tree can be inspected, every directory can be listed and every file
can be opened and read. -/
def readable : Node → Bool
  | .gone _ _ => false
  | .file _ _ _ (.content _) => true
  | .file _ _ _ _ => false
  | .dir _ (some _) _ => false
  | .dir _ none entries => readableAll entries
/-- All entries of a directory are readable. -/
def readableAll : List Node → Bool
  | [] => true
  | n :: rest => readable n && readableAll rest
end

namespace Concurrent03

mutual
/-- The pairs that the Walker `walkDir(dir, ...)` on the entry found at `dir`, and all the
tasks it spawns directly or not, send to the Aggregator. -/
def walkerPairs (dir : String) : Node → List pair
  | .gone _ _ => []
  | .file name regular size data =>
    if regular && decide (size > 0) then [(hashFile (.file name regular size data) dir).1] else []
  | .dir _ (some _) _ => []
  | .dir _ none entries => entriesPairs dir entries
/-- The pairs sent on behalf of the entries of the directory `dir`. -/
def entriesPairs (dir : String) : List Node → List pair
  | [] => []
  | n :: rest =>
    match n with
    | .gone _ _ => []
    | .file name regular size data =>
      if regular && decide (size > 0) then
        (hashFile (.file name regular size data) (Join dir name)).1 :: entriesPairs dir rest
      else entriesPairs dir rest
    | .dir _ (some _) _ => []
    | .dir name none _ => walkerPairs (Join dir name) n ++ entriesPairs dir rest
end

/-- The pairs sent on behalf of a spawn. -/
def spawnPairs : Spawn → List pair
  | .walkDir p n => walkerPairs p n
  | .processFile p n => [(hashFile n p).1]

/-- The pairs sent on behalf of a list of spawns. -/
def spawnsPairs : List Spawn → List pair
  | [] => []
  | sp :: rest => spawnPairs sp ++ spawnsPairs rest

/-- The pairs that a goroutine and the tasks it will spawn have still to send. -/
def Task.future : Task → Multiset pair
  | .walkDir0 dir n => (walkerPairs dir n : Multiset pair)
  | .walkDir1 todo _ => (spawnsPairs todo : Multiset pair)
  | .walkDir1go sp todo _ => (spawnPairs sp ++ spawnsPairs todo : Multiset pair)
  | .processFile0 path n => ([(hashFile n path).1] : Multiset pair)
  | .processFile1 path n => ([(hashFile n path).1] : Multiset pair)
  | .processFile2 path n => ([(hashFile n path).1] : Multiset pair)
  | .processFile3 p => ([p] : Multiset pair)
  | _ => 0

/-- The pairs still to be sent on behalf of the root Walker that `main` has not called yet. -/
def Main.future (root : Node) : Main → Multiset pair
  | .add => (walkerPairs root.name root : Multiset pair)
  | .call => (walkerPairs root.name root : Multiset pair)
  | _ => 0

/-- Sum of a multiset-valued count over the goroutines. -/
def totalM (f : Task → Multiset pair) (ts : List Task) : Multiset pair := (ts.map f).sum

/-- A Walker past `filepath.Walk` carries an error return, not a panic. -/
def Task.returns : Task → Bool
  | .walkDir1 _ ret => ret != Outcome.panicked
  | .walkDir1go _ _ ret => ret != Outcome.panicked
  | .walkDir2 ret => ret != Outcome.panicked
  | .exited ret => ret != Outcome.panicked
  | _ => true

/-- The goroutine is the root Walker on `root`, at any of its program points. -/
def Task.isRoot (root : Node) : Task → Prop
  | .walkDir0 dir n => dir = root.name ∧ n = root
  | .walkDir1 _ ret => ret = (rootSpawns root.name root).2
  | .walkDir1go _ _ ret => ret = (rootSpawns root.name root).2
  | .walkDir2 ret => ret = (rootSpawns root.name root).2
  | .exited ret => ret = (rootSpawns root.name root).2
  | _ => False

/-- Invariant of the step relation about what is sent to the Aggregator and what `main`
reads back. -/
structure Inv2 (root : Node) (s : State) : Prop where
  no_crash : s.main ≠ Main.crashed
  returns : ∀ t ∈ s.tasks, t.returns = true
  pairs_eq : (s.pairs : Multiset pair) + totalM Task.future s.tasks + s.main.future root
    = (walkerPairs root.name root : Multiset pair)
  root_task : s.main.called = true → ∃ t, s.tasks.head? = some t ∧ t.isRoot root
  not_fatal : (rootSpawns root.name root).2 = Outcome.returned none → ∀ e, s.main ≠ Main.fatal e
  walked : s.main = Main.wait ∨ s.main.pastWait = true →
    (rootSpawns root.name root).2 = Outcome.returned none
  read_back : s.main = Main.print ∨ s.main = Main.done → s.r = some (collectHashes s.pairs)
  printed : s.main = Main.done → s.out = some (report (collectHashes s.pairs))

end Concurrent03

/-! ## A bound on the number of steps left -/

namespace Concurrent03

mutual
/-- A bound on the number of steps that a Walker on the entry, and the tasks it spawns
directly or not, can take. -/
def walkerWeight : Node → Nat
  | .gone _ _ => 3
  | .file _ _ _ _ => 11
  | .dir _ _ entries => 3 + entriesWeight entries
/-- The bound for the entries of a directory: two steps (`wg.Add(1)` and `go`) and the steps
of the task, for every entry. -/
def entriesWeight : List Node → Nat
  | [] => 0
  | n :: rest => 2 + walkerWeight n + entriesWeight rest
end

/-- A bound on the steps of the task that a spawn starts. -/
def spawnWeight : Spawn → Nat
  | .walkDir _ n => walkerWeight n
  | .processFile _ _ => 6

/-- A bound on the steps for a list of spawns still to make. -/
def spawnsWeight : List Spawn → Nat
  | [] => 0
  | sp :: rest => 2 + spawnWeight sp + spawnsWeight rest

/-- A bound on the steps that a goroutine, and the tasks it will spawn, can still take. -/
def Task.weight : Task → Nat
  | .walkDir0 _ n => walkerWeight n
  | .walkDir1 todo _ => spawnsWeight todo + 2
  | .walkDir1go sp todo _ => 1 + spawnWeight sp + spawnsWeight todo + 2
  | .walkDir2 _ => 1
  | .processFile0 _ _ => 6
  | .processFile1 _ _ => 5
  | .processFile2 _ _ => 4
  | .processFile3 _ => 3
  | .processFile4 => 2
  | .processFile5 => 1
  | .exited _ => 0

/-- A bound on the steps that `main` can still take, with those of the root Walker while
it is not called. -/
def Main.weight (root : Node) : Main → Nat
  | .add => 7 + walkerWeight root
  | .call => 6 + walkerWeight root
  | .walking => 5
  | .wait => 4
  | .close => 3
  | .recv => 2
  | .print => 1
  | _ => 0

/-- A bound on the number of steps that a run can still take from a state. -/
def stepsLeft (root : Node) (s : State) : Nat :=
  s.main.weight root + total Task.weight s.tasks

end Concurrent03

/-! # Theorems -/

set_option linter.unusedTactic false
set_option linter.unreachableTactic false
set_option linter.unnecessarySeqFocus false

/-! ## Maps -/

theorem mapGet_mapPut (m : results) (k : String) (v : fileList) (h : String) :
    mapGet (mapPut m k v) h = if k = h then v else mapGet m h := by
  induction m with
  | nil => simp [mapPut, mapGet]
  | cons e rest ih =>
    obtain ⟨k', v'⟩ := e
    by_cases hk : k' = k
    · subst hk
      by_cases hh : k' = h <;> simp [mapPut, mapGet, hh]
    · by_cases hh : k' = h
      · subst hh
        simp [mapPut, mapGet, hk, Ne.symm hk]
      · simp [mapPut, mapGet, hk, hh, ih]

theorem mem_keys_mapPut (m : results) (k : String) (v : fileList) (h : String) :
    h ∈ keys (mapPut m k v) ↔ h ∈ keys m ∨ h = k := by
  induction m with
  | nil => simp [mapPut, keys]
  | cons e rest ih =>
    obtain ⟨k', v'⟩ := e
    by_cases hk : k' = k
    · subst hk
      simp only [mapPut, if_true, keys, List.map_cons, List.mem_cons]
      tauto
    · have ih' : h ∈ List.map Prod.fst (mapPut rest k v) ↔ h ∈ List.map Prod.fst rest ∨ h = k := ih
      simp only [mapPut, hk, if_false, keys, List.map_cons, List.mem_cons, ih']
      tauto

theorem nodup_keys_mapPut (m : results) (k : String) (v : fileList) (hm : (keys m).Nodup) :
    (keys (mapPut m k v)).Nodup := by
  induction m with
  | nil => simp [mapPut, keys]
  | cons e rest ih =>
    obtain ⟨k', v'⟩ := e
    have hm' : k' ∉ keys rest ∧ (keys rest).Nodup := by simpa [keys] using hm
    by_cases hk : k' = k
    · subst hk
      simpa [mapPut, keys] using hm
    · have h1 : k' ∉ keys (mapPut rest k v) := by
        rw [mem_keys_mapPut]
        rintro (h | h)
        · exact hm'.1 h
        · exact hk h
      have h2 := ih hm'.2
      simp only [mapPut, hk, if_false, keys, List.map_cons, List.nodup_cons]
      exact ⟨h1, h2⟩

theorem mapGet_of_not_mem (m : results) (h : String) (hn : h ∉ keys m) : mapGet m h = [] := by
  induction m with
  | nil => rfl
  | cons e rest ih =>
    obtain ⟨k', v'⟩ := e
    have hn' : ¬ h = k' ∧ h ∉ keys rest := by simpa [keys] using hn
    have : ¬ k' = h := fun e => hn'.1 e.symm
    simp [mapGet, this, ih hn'.2]

theorem mem_iff_mapGet (m : results) (hm : (keys m).Nodup) (h : String) (v : fileList) :
    (h, v) ∈ m ↔ h ∈ keys m ∧ mapGet m h = v := by
  induction m with
  | nil => simp [keys]
  | cons e rest ih =>
    obtain ⟨k', v'⟩ := e
    have hm' : k' ∉ keys rest ∧ (keys rest).Nodup := by simpa [keys] using hm
    have ih' := ih hm'.2
    by_cases hk : k' = h
    · subst hk
      have hnot : ∀ w, (k', w) ∉ rest := fun w hw => hm'.1 (List.mem_map_of_mem Prod.fst hw)
      simp only [List.mem_cons, Prod.mk.injEq, true_and, keys, List.map_cons, true_or, mapGet,
        if_true]
      constructor
      · rintro (h1 | h1)
        · exact h1.symm
        · exact absurd h1 (hnot v)
      · intro h1
        exact Or.inl h1.symm
    · have hk' : ¬ h = k' := fun e => hk e.symm
      have ih2 : (h, v) ∈ rest ↔ h ∈ List.map Prod.fst rest ∧ mapGet rest h = v := ih'
      simp only [List.mem_cons, Prod.mk.injEq, hk', false_and, false_or, keys, List.map_cons,
        mapGet, hk, if_false, ih2]

theorem allPaths_mapPut_perm (m : results) (k x : String) :
    (allPaths (mapPut m k (mapGet m k ++ [x]))).Perm (allPaths m ++ [x]) := by
  induction m with
  | nil => simp [mapPut, mapGet, allPaths]
  | cons e rest ih =>
    obtain ⟨k', v'⟩ := e
    by_cases hk : k' = k
    · subst hk
      simp only [mapPut, mapGet, if_true, allPaths, List.append_assoc]
      exact List.Perm.append_left v' List.perm_append_comm
    · simp only [mapPut, mapGet, hk, if_false, allPaths, List.append_assoc]
      exact List.Perm.append_left v' ih

/-- Paths of the pairs with hash `h`, in the order received. -/
theorem mapGet_foldl_collectStep (ps : List pair) (m : results) (h : String) :
    mapGet (ps.foldl collectStep m) h
      = mapGet m h ++ (ps.filter (fun p => decide (p.hash = h))).map pair.path := by
  induction ps generalizing m with
  | nil => simp
  | cons p ps ih =>
    rw [List.foldl_cons, ih, collectStep, mapGet_mapPut]
    by_cases hp : p.hash = h
    · simp [hp, List.filter_cons]
    · simp [hp, List.filter_cons]

theorem mem_keys_foldl_collectStep (ps : List pair) (m : results) (h : String) :
    h ∈ keys (ps.foldl collectStep m) ↔ h ∈ keys m ∨ ∃ p ∈ ps, p.hash = h := by
  induction ps generalizing m with
  | nil => simp
  | cons p ps ih =>
    rw [List.foldl_cons, ih, collectStep, mem_keys_mapPut]
    simp only [List.mem_cons, exists_eq_or_imp]
    constructor
    · rintro ((h1 | h1) | h1)
      · exact Or.inl h1
      · exact Or.inr (Or.inl h1.symm)
      · exact Or.inr (Or.inr h1)
    · rintro (h1 | h1 | h1)
      · exact Or.inl (Or.inl h1)
      · exact Or.inl (Or.inr h1.symm)
      · exact Or.inr h1

theorem nodup_keys_foldl_collectStep (ps : List pair) (m : results) (hm : (keys m).Nodup) :
    (keys (ps.foldl collectStep m)).Nodup := by
  induction ps generalizing m with
  | nil => simpa using hm
  | cons p ps ih =>
    rw [List.foldl_cons]
    exact ih _ (nodup_keys_mapPut m _ _ hm)

theorem allPaths_foldl_collectStep (ps : List pair) (m : results) :
    (allPaths (ps.foldl collectStep m)).Perm (allPaths m ++ ps.map pair.path) := by
  induction ps generalizing m with
  | nil => simp
  | cons p ps ih =>
    rw [List.foldl_cons]
    refine (ih _).trans ?_
    rw [List.map_cons, ← List.singleton_append, ← List.append_assoc]
    exact List.Perm.append_right _ (allPaths_mapPut_perm m p.hash p.path)

theorem nodup_keys_collectHashes (ps : List pair) : (keys (collectHashes ps)).Nodup :=
  nodup_keys_foldl_collectStep ps [] (by simp [keys])

theorem mem_keys_collectHashes (ps : List pair) (h : String) :
    h ∈ keys (collectHashes ps) ↔ ∃ p ∈ ps, p.hash = h := by
  rw [collectHashes, mem_keys_foldl_collectStep]
  simp [keys]

theorem mapGet_collectHashes (ps : List pair) (h : String) :
    mapGet (collectHashes ps) h = (ps.filter (fun p => decide (p.hash = h))).map pair.path := by
  simp [collectHashes, mapGet_foldl_collectStep, mapGet]

theorem allPaths_collectHashes (ps : List pair) :
    (allPaths (collectHashes ps)).Perm (ps.map pair.path) := by
  simpa [collectHashes, allPaths] using allPaths_foldl_collectStep ps []

/-- C1: `collectHashes` groups by digest in arrival order.  For every sequence `ps` of pairs
received, the keys of the map are unique and are exactly the hashes occurring in `ps`; the
entries are exactly the `(h, files)` with `h` occurring in `ps` and `files` the paths of the
pairs with hash `h` in the order received; and the number of paths over all keys is the number
of pairs received. -/
theorem collectHashes_groups_in_arrival_order (ps : List pair) :
    (keys (collectHashes ps)).Nodup
    ∧ (∀ h, h ∈ keys (collectHashes ps) ↔ ∃ p ∈ ps, p.hash = h)
    ∧ (∀ h files, (h, files) ∈ collectHashes ps ↔
        (∃ p ∈ ps, p.hash = h)
          ∧ files = (ps.filter (fun p => decide (p.hash = h))).map pair.path)
    ∧ (allPaths (collectHashes ps)).length = ps.length := by
  refine ⟨nodup_keys_collectHashes ps, mem_keys_collectHashes ps, ?_, ?_⟩
  · intro h files
    rw [mem_iff_mapGet _ (nodup_keys_collectHashes ps), mem_keys_collectHashes,
      mapGet_collectHashes]
    constructor
    · rintro ⟨h1, h2⟩
      exact ⟨h1, h2.symm⟩
    · rintro ⟨h1, h2⟩
      exact ⟨h1, h2.symm⟩
  · simpa using (allPaths_collectHashes ps).length_eq

/-- Permuting the sequence of pairs received keeps the key set and permutes each group. -/
theorem collectHashes_perm_aux (ps qs : List pair) (h : ps.Perm qs) :
    (∀ k, k ∈ keys (collectHashes ps) ↔ k ∈ keys (collectHashes qs))
    ∧ (∀ k, (mapGet (collectHashes ps) k).Perm (mapGet (collectHashes qs) k)) := by
  constructor
  · intro k
    rw [mem_keys_collectHashes, mem_keys_collectHashes]
    constructor
    · rintro ⟨p, hp, hk⟩
      exact ⟨p, h.mem_iff.mp hp, hk⟩
    · rintro ⟨p, hp, hk⟩
      exact ⟨p, h.mem_iff.mpr hp, hk⟩
  · intro k
    rw [mapGet_collectHashes, mapGet_collectHashes]
    exact (h.filter _).map _

/-! ## The report loop -/

theorem report_eq_filter_map (r : results) :
    report r = (r.filter (fun e => decide (2 ≤ e.2.length))).map
      (fun e => ({ count := e.2.length, files := e.2 } : Printed)) := by
  induction r with
  | nil => rfl
  | cons e rest ih =>
    obtain ⟨k, files⟩ := e
    by_cases h : 2 ≤ files.length
    · have h' : files.length > 1 := h
      simp [report, h', List.filter_cons, h, ih]
    · have h' : ¬ files.length > 1 := h
      simp [report, h', List.filter_cons, h, ih]

/-- C6: for every map `r`, the groups printed by the report loop of `main` are exactly the
entries of `r` with two or more paths, each printed with its member count and all its paths;
every printed group has at least two paths, so no entry with exactly one path is printed. -/
theorem report_exactly_groups_of_two_or_more (r : results) :
    report r = (r.filter (fun e => decide (2 ≤ e.2.length))).map
        (fun e => ({ count := e.2.length, files := e.2 } : Printed))
    ∧ (∀ g, g ∈ report r ↔ ∃ e ∈ r, 2 ≤ e.2.length ∧ g = { count := e.2.length, files := e.2 })
    ∧ (∀ e ∈ r, e.2.length = 1 → ∀ g ∈ report r, g.files ≠ e.2) := by
  have hmem : ∀ g, g ∈ report r ↔
      ∃ e ∈ r, 2 ≤ e.2.length ∧ g = { count := e.2.length, files := e.2 } := by
    intro g
    rw [report_eq_filter_map, List.mem_map]
    constructor
    · rintro ⟨e, he, rfl⟩
      rw [List.mem_filter] at he
      exact ⟨e, he.1, by simpa using he.2, rfl⟩
    · rintro ⟨e, he, h2, rfl⟩
      exact ⟨e, List.mem_filter.mpr ⟨he, by simpa using h2⟩, rfl⟩
  refine ⟨report_eq_filter_map r, hmem, ?_⟩
  intro e _ h1 g hg hfiles
  obtain ⟨e', _, h2, rfl⟩ := (hmem g).mp hg
  have h3 : e'.2 = e.2 := hfiles
  rw [h3] at h2
  omega

/-! ## The visit callback on `os.ErrNotExist` -/

/-- C5: called with the error `os.ErrNotExist` and no file information, the visit callback
of `walkDir` panics (it calls a method of the nil `fi`), in the bounded fan-out variant and
in the sequential variant alike; and the error that `lstat` gives for a vanished entry,
a path error with `ENOENT`, is returned by the callback as an error. -/
theorem visit_ErrNotExist_panics (dir p : String) (n : Node) (spawned : List Concurrent03.Spawn)
    (hashes : results) :
    Concurrent03.visit dir n p none (some GoError.ErrNotExist) spawned
      = (spawned, Outcome.panicked)
    ∧ Sequential.visit n p none (some GoError.ErrNotExist) hashes = (hashes, Outcome.panicked)
    ∧ Concurrent03.visit dir n p none (some (GoError.PathError "lstat" p Errno.ENOENT)) spawned
      = (spawned, Outcome.returned (some (GoError.PathError "lstat" p Errno.ENOENT)))
    ∧ Sequential.visit n p none (some (GoError.PathError "lstat" p Errno.ENOENT)) hashes
      = (hashes, Outcome.returned (some (GoError.PathError "lstat" p Errno.ENOENT))) := by
  simp [Concurrent03.visit, Sequential.visit]

/-! ## Digests -/

set_option maxRecDepth 100000 in
theorem char_ofNat_toNat : ∀ n : Fin 256, (Char.ofNat n.val).toNat = n.val := by decide

theorem goString_injective (l₁ l₂ : List Nat) (h₁ : ∀ b ∈ l₁, b < 256) (h₂ : ∀ b ∈ l₂, b < 256)
    (h : goString l₁ = goString l₂) : l₁ = l₂ := by
  have hmap : l₁.map Char.ofNat = l₂.map Char.ofNat := congrArg String.data h
  have key : ∀ l : List Nat, (∀ b ∈ l, b < 256) → (l.map Char.ofNat).map Char.toNat = l := by
    intro l hl
    rw [List.map_map]
    conv_rhs => rw [← List.map_id l]
    apply List.map_congr_left
    intro b hb
    exact char_ofNat_toNat ⟨b, hl b hb⟩
  rw [← key l₁ h₁, ← key l₂ h₂, hmap]

theorem leBytes_lt (n x : Nat) : ∀ b ∈ leBytes n x, b < 256 := by
  intro b hb
  simp only [leBytes, List.mem_map] at hb
  obtain ⟨i, _, rfl⟩ := hb
  exact Nat.mod_lt _ (by decide)

theorem md5Sum_lt (msg : Bytes) : ∀ b ∈ md5Sum msg, b < 256 := by
  intro b hb
  simp only [md5Sum, List.mem_append] at hb
  rcases hb with ((hb | hb) | hb) | hb <;> exact leBytes_lt _ _ b hb

theorem sameGroup_of_hash_eq (ps : List pair) (x y : pair) (hx : x ∈ ps) (hy : y ∈ ps)
    (h : x.hash = y.hash) : sameGroup (collectHashes ps) x y := by
  refine ⟨(x.hash, mapGet (collectHashes ps) x.hash), ?_, ?_, ?_⟩
  · rw [mem_iff_mapGet _ (nodup_keys_collectHashes ps), mem_keys_collectHashes]
    exact ⟨⟨x, hx, rfl⟩, rfl⟩
  · rw [mapGet_collectHashes]
    exact List.mem_map_of_mem _ (List.mem_filter.mpr ⟨hx, by simp⟩)
  · rw [mapGet_collectHashes]
    exact List.mem_map_of_mem _ (List.mem_filter.mpr ⟨hy, by simp [h]⟩)

theorem hash_eq_of_sameGroup (ps : List pair) (x y : pair) (hx : x ∈ ps) (hy : y ∈ ps)
    (hnd : (ps.map pair.path).Nodup) (h : sameGroup (collectHashes ps) x y) :
    x.hash = y.hash := by
  obtain ⟨⟨k, files⟩, he, h1, h2⟩ := h
  rw [mem_iff_mapGet _ (nodup_keys_collectHashes ps), mapGet_collectHashes] at he
  have hinj : ∀ z ∈ ps, ∀ w ∈ ps, z.path = w.path → z = w :=
    fun z hz w hw e => List.inj_on_of_nodup_map hnd hz hw e
  have hin : ∀ z ∈ ps, z.path ∈ files → z.hash = k := by
    intro z hz hzf
    rw [← he.2, List.mem_map] at hzf
    obtain ⟨w, hw, hwz⟩ := hzf
    rw [List.mem_filter] at hw
    have : w = z := hinj w hw.1 z hz hwz
    subst this
    simpa using hw.2
  rw [hin x hx h1, hin y hy h2]

/-- C7 (as amended): `hashFile` succeeds on every file that can be opened and read, and its
digest depends on the content only: files of identical content get the same key.  Two
successfully hashed files get the same key if and only if the MD5 digests of their contents
are equal; with both pairs received (under distinct paths) they are in the same group if and
only if their keys are equal.  So files under different keys have different contents. -/
theorem same_group_iff_same_md5 (name₁ name₂ p₁ p₂ : String) (reg₁ reg₂ : Bool)
    (size₁ size₂ : Nat) (b₁ b₂ : Bytes) (ps : List pair)
    (h₁ : (hashFile (.file name₁ reg₁ size₁ (.content b₁)) p₁).1 ∈ ps)
    (h₂ : (hashFile (.file name₂ reg₂ size₂ (.content b₂)) p₂).1 ∈ ps)
    (hnd : (ps.map pair.path).Nodup) :
    (hashFile (.file name₁ reg₁ size₁ (.content b₁)) p₁).2 = none
    ∧ (hashFile (.file name₂ reg₂ size₂ (.content b₂)) p₂).2 = none
    ∧ (b₁ = b₂ → (hashFile (.file name₁ reg₁ size₁ (.content b₁)) p₁).1.hash
        = (hashFile (.file name₂ reg₂ size₂ (.content b₂)) p₂).1.hash)
    ∧ ((hashFile (.file name₁ reg₁ size₁ (.content b₁)) p₁).1.hash
        = (hashFile (.file name₂ reg₂ size₂ (.content b₂)) p₂).1.hash ↔ md5Sum b₁ = md5Sum b₂)
    ∧ (sameGroup (collectHashes ps) (hashFile (.file name₁ reg₁ size₁ (.content b₁)) p₁).1
          (hashFile (.file name₂ reg₂ size₂ (.content b₂)) p₂).1
        ↔ md5Sum b₁ = md5Sum b₂)
    ∧ ((hashFile (.file name₁ reg₁ size₁ (.content b₁)) p₁).1.hash
        ≠ (hashFile (.file name₂ reg₂ size₂ (.content b₂)) p₂).1.hash → b₁ ≠ b₂) := by
  have hkey : (hashFile (.file name₁ reg₁ size₁ (.content b₁)) p₁).1.hash
      = (hashFile (.file name₂ reg₂ size₂ (.content b₂)) p₂).1.hash ↔ md5Sum b₁ = md5Sum b₂ := by
    constructor
    · intro h
      exact goString_injective _ _ (md5Sum_lt b₁) (md5Sum_lt b₂) h
    · intro h
      simp [hashFile, h]
  refine ⟨rfl, rfl, ?_, hkey, ?_, ?_⟩
  · intro h
    exact hkey.mpr (by rw [h])
  · rw [← hkey]
    exact ⟨hash_eq_of_sameGroup ps _ _ h₁ h₂ hnd, sameGroup_of_hash_eq ps _ _ h₁ h₂⟩
  · intro hne hb
    exact hne (hkey.mpr (by rw [hb]))

set_option maxRecDepth 100000 in
/-- C7 (witness): two files of content `[1]` under the paths `r/a` and `r/b`. -/
theorem same_group_iff_same_md5_witness :
    (hashFile (.file "a" true 1 (.content [1])) "r/a").1.hash
        = (hashFile (.file "b" true 1 (.content [1])) "r/b").1.hash
    ∧ sameGroup
        (collectHashes [(hashFile (.file "a" true 1 (.content [1])) "r/a").1,
          (hashFile (.file "b" true 1 (.content [1])) "r/b").1])
        (hashFile (.file "a" true 1 (.content [1])) "r/a").1
        (hashFile (.file "b" true 1 (.content [1])) "r/b").1 :=
  have h := same_group_iff_same_md5 "a" "b" "r/a" "r/b" true true 1 1 [1] [1]
    [(hashFile (.file "a" true 1 (.content [1])) "r/a").1,
      (hashFile (.file "b" true 1 (.content [1])) "r/b").1]
    (List.mem_cons_self _ _) (List.mem_cons_of_mem _ (List.mem_cons_self _ _)) (by decide)
  ⟨h.2.2.1 rfl, h.2.2.2.2.1.mpr rfl⟩

set_option maxRecDepth 100000 in
/-- C7 (counterexample): the two 128-byte files `collisionA` and `collisionB` differ, both are
hashed successfully, and they get the same key; received under the paths `r/a` and `r/b`
they form one group, which the report prints as a group of two. -/
theorem differing_content_same_group :
    collisionA ≠ collisionB
    ∧ hashFile (.file "a" true 128 (.content collisionA)) "r/a"
        = ({ hash := goString collisionDigest, path := "r/a" }, none)
    ∧ hashFile (.file "b" true 128 (.content collisionB)) "r/b"
        = ({ hash := goString collisionDigest, path := "r/b" }, none)
    ∧ collectHashes [{ hash := goString collisionDigest, path := "r/a" },
          { hash := goString collisionDigest, path := "r/b" }]
        = [(goString collisionDigest, ["r/a", "r/b"])]
    ∧ report [(goString collisionDigest, ["r/a", "r/b"])]
        = [{ count := 2, files := ["r/a", "r/b"] }] := by
  decide

/-! ## The step relation: counter and Limiter -/

namespace Concurrent03

theorem total_set (f : Task → Nat) (l : List Task) (i : Nat) (t t' : Task)
    (h : l[i]? = some t) : total f (l.set i t') + f t = total f l + f t' := by
  induction l generalizing i with
  | nil => simp at h
  | cons x xs ih =>
    cases i with
    | zero =>
      simp only [List.getElem?_cons_zero, Option.some.injEq] at h
      subst h
      simp only [total, List.set_cons_zero, List.map_cons, List.sum_cons]
      omega
    | succ j =>
      simp only [List.getElem?_cons_succ] at h
      have := ih j h
      simp only [total, List.set_cons_succ, List.map_cons, List.sum_cons] at this ⊢
      omega

theorem total_append (f : Task → Nat) (l l' : List Task) :
    total f (l ++ l') = total f l + total f l' := by
  simp [total]

theorem le_total (f : Task → Nat) (l : List Task) (i : Nat) (t : Task) (h : l[i]? = some t) :
    f t ≤ total f l := by
  have := total_set f l i t t h
  have h2 := total_set f l i t (.exited (.returned none)) h
  induction l generalizing i with
  | nil => simp at h
  | cons x xs ih =>
    cases i with
    | zero =>
      simp only [List.getElem?_cons_zero, Option.some.injEq] at h
      subst h
      simp [total]
    | succ j =>
      simp only [List.getElem?_cons_succ] at h
      have h3 := ih j h (total_set f xs j t t h) (total_set f xs j t _ h)
      simp only [total, List.map_cons, List.sum_cons] at h3 ⊢
      omega

theorem inv_init (K : Nat) : Inv K init := by
  constructor <;> simp [init, outstanding, total, Main.registering, Main.pastWait]

theorem inv_stepMain (K : Nat) (root : Node) (s s' : State) (h : Inv K s)
    (hs : stepMain root s = some s') : Inv K s' := by
  obtain ⟨h1, h2, h3, h4, h5, h6⟩ := h
  unfold stepMain at hs
  split at hs
  · simp only [Option.some.injEq] at hs
    subst hs
    rename_i hm
    constructor <;> simp_all [outstanding, Main.registering, Main.pastWait, Main.called]
  · simp only [Option.some.injEq] at hs
    subst hs
    rename_i hm
    constructor <;>
      simp_all [outstanding, Main.registering, Main.pastWait, total_append, total, Task.running,
        Task.registering, Task.tokens, Main.called]
  · rename_i hm
    split at hs
    · simp only [Option.some.injEq] at hs
      subst hs
      constructor <;> simp_all [outstanding, Main.registering, Main.pastWait, Main.called]
    · simp only [Option.some.injEq] at hs
      subst hs
      constructor <;> simp_all [outstanding, Main.registering, Main.pastWait, Main.called]
    · simp at hs
  · rename_i hm
    split at hs
    · simp only [Option.some.injEq] at hs
      subst hs
      constructor <;> simp_all [outstanding, Main.registering, Main.pastWait, Main.called]
    · simp at hs
  · simp only [Option.some.injEq] at hs
    subst hs
    rename_i hm
    constructor <;> simp_all [outstanding, Main.registering, Main.pastWait, Main.called]
  · simp only [Option.some.injEq] at hs
    subst hs
    rename_i hm
    constructor <;> simp_all [outstanding, Main.registering, Main.pastWait, Main.called]
  · simp only [Option.some.injEq] at hs
    subst hs
    rename_i hm
    constructor <;> simp_all [outstanding, Main.registering, Main.pastWait, Main.called]
  · simp at hs

theorem running_spawnTask (sp : Spawn) : (spawnTask sp).running = 1 := by
  cases sp <;> rfl

theorem registering_spawnTask (sp : Spawn) : (spawnTask sp).registering = 0 := by
  cases sp <;> rfl

theorem tokens_spawnTask (sp : Spawn) : (spawnTask sp).tokens = 0 := by
  cases sp <;> rfl

theorem total_singleton (f : Task → Nat) (t : Task) : total f [t] = f t := by
  simp [total]

theorem wg_pos {K : Nat} {s : State} {i : Nat} {t : Task} (h : Inv K s)
    (heq : s.tasks[i]? = some t) (hrun : t.running = 1) : 0 < s.wg := by
  have e := le_total Task.running s.tasks i t heq
  rw [h.wg_eq, outstanding]
  omega

theorem not_pastWait {K : Nat} {s : State} {i : Nat} {t : Task} (h : Inv K s)
    (heq : s.tasks[i]? = some t) (hrun : t.running = 1) : s.main.pastWait = false := by
  cases hp : s.main.pastWait
  · rfl
  · have := h.past_wg hp
    have := wg_pos h heq hrun
    omega

theorem not_closed {K : Nat} {s : State} {i : Nat} {t : Task} (h : Inv K s)
    (heq : s.tasks[i]? = some t) (hrun : t.running = 1) : s.closed = false := by
  cases hc : s.closed
  · rfl
  · have := h.closed_past hc
    rw [not_pastWait h heq hrun] at this
    cases this

theorem called_of_task {K : Nat} {s : State} {i : Nat} {t : Task} (h : Inv K s)
    (heq : s.tasks[i]? = some t) : s.main.called = true := by
  cases hc : s.main.called
  · have := h.not_called hc
    simp [this] at heq
  · rfl

/-- A step of goroutine `i` from `t` to `t'` that starts the goroutines `extra`, with the
counter and the Limiter changed as the program points say, keeps the invariant. -/
theorem inv_of_move {K : Nat} {s s' : State} {i : Nat} {t : Task} (t' : Task)
    (extra : List Task)
    (h : Inv K s) (heq : s.tasks[i]? = some t) (hrun : t.running = 1)
    (htasks : s'.tasks = s.tasks.set i t' ++ extra)
    (hmain : s'.main = s.main ∨ s'.main = Main.crashed)
    (hclosed : s'.closed = s.closed)
    (hwg : s'.wg + t.running + t.registering
      = s.wg + t'.running + t'.registering + total Task.running extra
        + total Task.registering extra)
    (hlim : s'.limit + t.tokens = s.limit + t'.tokens + total Task.tokens extra)
    (hle : s'.limit ≤ K) : Inv K s' := by
  have e1 := total_set Task.running s.tasks i t t' heq
  have e2 := total_set Task.registering s.tasks i t t' heq
  have e3 := total_set Task.tokens s.tasks i t t' heq
  have hnp := not_pastWait h heq hrun
  have hnc := not_closed h heq hrun
  have hcalled := called_of_task h heq
  have hreg : s.main.registering = 0 := by
    cases hm : s.main <;> simp_all [Main.called, Main.registering]
  have hreg' : s'.main.registering = 0 := by
    rcases hmain with hm | hm <;> rw [hm]
    · exact hreg
    · rfl
  have h1 := h.wg_eq
  have h2 := h.limit_eq
  refine ⟨?_, ?_, hle, ?_, ?_, ?_⟩
  · rw [outstanding, htasks, total_append, total_append, hreg']
    rw [outstanding, hreg] at h1
    omega
  · rw [htasks, total_append]
    omega
  · intro hc
    rw [hclosed, hnc] at hc
    cases hc
  · intro hp
    rcases hmain with hm | hm <;> rw [hm] at hp
    · rw [hnp] at hp
      cases hp
    · cases hp
  · intro hc
    rcases hmain with hm | hm <;> rw [hm] at hc
    · rw [hcalled] at hc
      cases hc
    · cases hc

theorem inv_stepTask (K : Nat) (s s' : State) (i : Nat) (h : Inv K s)
    (hs : stepTask K s i = some s') : Inv K s' := by
  unfold stepTask at hs
  split at hs
  · simp at hs
  · split at hs
    · simp at hs
    · rename_i dir n heq
      split at hs
      · rename_i hlt
        simp only [Option.some.injEq] at hs
        subst hs
        refine inv_of_move (.walkDir1 (Walk (visit dir) dir [] n).1 (Walk (visit dir) dir [] n).2) [] h heq rfl (List.append_nil _).symm (Or.inl rfl) rfl ?_ ?_ (Nat.succ_le_of_lt hlt)
        · simp only [total_singleton, running_spawnTask, registering_spawnTask]
          simp [Task.running, Task.registering, total] <;> omega
        · simp only [total_singleton, tokens_spawnTask]
          simp [Task.tokens, total] <;> omega
      · simp at hs
    · rename_i sp todo ret heq
      simp only [Option.some.injEq] at hs
      subst hs
      refine inv_of_move (.walkDir1go sp todo ret) [] h heq rfl (List.append_nil _).symm (Or.inl rfl) rfl ?_ ?_ (h.limit_le)
      · simp only [total_singleton, running_spawnTask, registering_spawnTask]
        simp [Task.running, Task.registering, total] <;> omega
      · simp only [total_singleton, tokens_spawnTask]
        simp [Task.tokens, total] <;> omega
    · rename_i sp todo ret heq
      simp only [Option.some.injEq] at hs
      subst hs
      refine inv_of_move (.walkDir1 todo ret) [spawnTask sp] h heq rfl rfl (Or.inl rfl) rfl ?_ ?_ (h.limit_le)
      · simp only [total_singleton, running_spawnTask, registering_spawnTask]
        simp [Task.running, Task.registering, total] <;> omega
      · simp only [total_singleton, tokens_spawnTask]
        simp [Task.tokens, total] <;> omega
    · rename_i ret heq
      split at hs
      · simp at hs
      · rename_i hlim
        simp only [Option.some.injEq] at hs
        subst hs
        refine inv_of_move (.walkDir2 ret) [] h heq rfl (List.append_nil _).symm (Or.inl rfl) rfl ?_ ?_ (Nat.le_trans (Nat.sub_le _ _) h.limit_le)
        · simp only [total_singleton, running_spawnTask, registering_spawnTask]
          simp [Task.running, Task.registering, total] <;> omega
        · simp only [total_singleton, tokens_spawnTask]
          simp [Task.tokens, total] <;> omega
    · rename_i ret heq
      split at hs
      · rename_i hz
        exfalso
        have := wg_pos h heq rfl
        omega
      · rename_i hz
        split at hs
        · rename_i hpanic
          simp only [Option.some.injEq] at hs
          subst hs
          refine inv_of_move (.exited ret) [] h heq rfl (List.append_nil _).symm (Or.inr rfl) rfl ?_ ?_ (h.limit_le)
          · simp only [total_singleton, running_spawnTask, registering_spawnTask]
            simp [Task.running, Task.registering, total] <;> omega
          · simp only [total_singleton, tokens_spawnTask]
            simp [Task.tokens, total] <;> omega
        · rename_i hpanic
          simp only [Option.some.injEq] at hs
          subst hs
          refine inv_of_move (.exited ret) [] h heq rfl (List.append_nil _).symm (Or.inl rfl) rfl ?_ ?_ (h.limit_le)
          · simp only [total_singleton, running_spawnTask, registering_spawnTask]
            simp [Task.running, Task.registering, total] <;> omega
          · simp only [total_singleton, tokens_spawnTask]
            simp [Task.tokens, total] <;> omega
    · rename_i path n heq
      split at hs
      · rename_i hlt
        simp only [Option.some.injEq] at hs
        subst hs
        refine inv_of_move (.processFile1 path n) [] h heq rfl (List.append_nil _).symm (Or.inl rfl) rfl ?_ ?_ (Nat.succ_le_of_lt hlt)
        · simp only [total_singleton, running_spawnTask, registering_spawnTask]
          simp [Task.running, Task.registering, total] <;> omega
        · simp only [total_singleton, tokens_spawnTask]
          simp [Task.tokens, total] <;> omega
      · simp at hs
    · rename_i path n heq
      split at hs
      · rename_i hopen
        simp only [Option.some.injEq] at hs
        subst hs
        refine inv_of_move (.processFile2 path n) [] h heq rfl (List.append_nil _).symm (Or.inl rfl) rfl ?_ ?_ (h.limit_le)
        · simp only [total_singleton, running_spawnTask, registering_spawnTask]
          simp [Task.running, Task.registering, total] <;> omega
        · simp only [total_singleton, tokens_spawnTask]
          simp [Task.tokens, total] <;> omega
      · rename_i hopen
        simp only [Option.some.injEq] at hs
        subst hs
        refine inv_of_move (.processFile3 (hashFile n path).1) [] h heq rfl (List.append_nil _).symm (Or.inl rfl) rfl ?_ ?_ (h.limit_le)
        · simp only [total_singleton, running_spawnTask, registering_spawnTask]
          simp [Task.running, Task.registering, total] <;> omega
        · simp only [total_singleton, tokens_spawnTask]
          simp [Task.tokens, total] <;> omega
    · rename_i path n heq
      simp only [Option.some.injEq] at hs
      subst hs
      refine inv_of_move (.processFile3 (hashFile n path).1) [] h heq rfl (List.append_nil _).symm (Or.inl rfl) rfl ?_ ?_ (h.limit_le)
      · simp only [total_singleton, running_spawnTask, registering_spawnTask]
        simp [Task.running, Task.registering, total] <;> omega
      · simp only [total_singleton, tokens_spawnTask]
        simp [Task.tokens, total] <;> omega
    · rename_i p heq
      split at hs
      · rename_i hcl
        exfalso
        have := not_closed h heq rfl
        simp_all
      · rename_i hcl
        simp only [Option.some.injEq] at hs
        subst hs
        refine inv_of_move (.processFile4) [] h heq rfl (List.append_nil _).symm (Or.inl rfl) rfl ?_ ?_ (h.limit_le)
        · simp only [total_singleton, running_spawnTask, registering_spawnTask]
          simp [Task.running, Task.registering, total] <;> omega
        · simp only [total_singleton, tokens_spawnTask]
          simp [Task.tokens, total] <;> omega
    · rename_i heq
      split at hs
      · simp at hs
      · rename_i hlim
        simp only [Option.some.injEq] at hs
        subst hs
        refine inv_of_move (.processFile5) [] h heq rfl (List.append_nil _).symm (Or.inl rfl) rfl ?_ ?_ (Nat.le_trans (Nat.sub_le _ _) h.limit_le)
        · simp only [total_singleton, running_spawnTask, registering_spawnTask]
          simp [Task.running, Task.registering, total] <;> omega
        · simp only [total_singleton, tokens_spawnTask]
          simp [Task.tokens, total] <;> omega
    · rename_i heq
      split at hs
      · rename_i hz
        exfalso
        have := wg_pos h heq rfl
        omega
      · rename_i hz
        simp only [Option.some.injEq] at hs
        subst hs
        refine inv_of_move (.exited (.returned none)) [] h heq rfl (List.append_nil _).symm (Or.inl rfl) rfl ?_ ?_ (h.limit_le)
        · simp only [total_singleton, running_spawnTask, registering_spawnTask]
          simp [Task.running, Task.registering, total] <;> omega
        · simp only [total_singleton, tokens_spawnTask]
          simp [Task.tokens, total] <;> omega
    · simp at hs

theorem inv_step (K : Nat) (root : Node) (s s' : State) (a : Actor) (h : Inv K s)
    (hs : step K root s a = some s') : Inv K s' := by
  cases a with
  | main => exact inv_stepMain K root s s' h hs
  | task i => exact inv_stepTask K s s' i h hs

theorem inv_run (K : Nat) (root : Node) (sched : List Actor) (s s' : State) (h : Inv K s)
    (hs : run K root s sched = some s') : Inv K s' := by
  induction sched generalizing s with
  | nil =>
    simp only [run, Option.some.injEq] at hs
    exact hs ▸ h
  | cons a rest ih =>
    simp only [run] at hs
    cases hstep : step K root s a with
    | none => simp [hstep] at hs
    | some s₁ =>
      simp only [hstep, Option.some_bind] at hs
      exact ih s₁ (inv_step K root s s₁ a h hstep) hs

theorem inv_reachable (K : Nat) (root : Node) (s : State) (h : Reachable K root s) : Inv K s := by
  obtain ⟨sched, hs⟩ := h
  exact inv_run K root sched init s (inv_init K) hs

/-! ## `filepath.Walk` with the visit callback of `walkDir` -/

theorem Join_ne (dir name : String) : Join dir name ≠ dir := by
  intro h
  have h1 := congrArg String.length h
  simp only [Join, String.length_append] at h1
  have h2 : "/".length = 1 := by decide
  omega

theorem walkNames_visit (dir : String) (entries : List Node) (st : List Spawn) :
    walkNames (visit dir) dir st entries
      = (st ++ (entrySpawns dir entries).1, (entrySpawns dir entries).2) := by
  induction entries generalizing st with
  | nil => simp [walkNames, entrySpawns]
  | cons n rest ih =>
    cases n with
    | gone name errno =>
      simp [walkNames, entrySpawns, lstat, visit, Node.name]
    | file name regular size data =>
      cases regular with
      | false =>
        simp [walkNames, walk, entrySpawns, lstat, visit, Node.name, FileInfo.IsDir,
          FileInfo.IsRegular, ih]
      | true =>
        by_cases hsz : size > 0
        · simp [walkNames, walk, entrySpawns, lstat, visit, Node.name, FileInfo.IsDir,
            FileInfo.IsRegular, hsz, ih]
        · simp [walkNames, walk, entrySpawns, lstat, visit, Node.name, FileInfo.IsDir,
            FileInfo.IsRegular, hsz, ih]
    | dir name listErr entries =>
      cases listErr with
      | none =>
        simp [walkNames, walk, entrySpawns, lstat, visit, Node.name, FileInfo.IsDir,
          FileInfo.IsRegular, Join_ne, ih]
      | some errno =>
        simp [walkNames, walk, entrySpawns, lstat, visit, Node.name, FileInfo.IsDir,
          FileInfo.IsRegular]

theorem entrySpawns_ret (dir : String) (entries : List Node) :
    (entrySpawns dir entries).2 = Outcome.returned none
      ∨ ∃ op p errno, (entrySpawns dir entries).2
          = Outcome.returned (some (GoError.PathError op p errno)) := by
  induction entries with
  | nil => exact Or.inl rfl
  | cons n rest ih =>
    cases n with
    | gone name errno => exact Or.inr ⟨_, _, _, rfl⟩
    | file name regular size data =>
      by_cases hr : (regular && decide (size > 0)) = true
      · simpa [entrySpawns, hr] using ih
      · simpa [entrySpawns, hr] using ih
    | dir name listErr entries =>
      cases listErr with
      | none => simpa [entrySpawns] using ih
      | some errno => exact Or.inr ⟨_, _, _, rfl⟩

theorem rootSpawns_ret (dir : String) (n : Node) :
    (rootSpawns dir n).2 = Outcome.returned none
      ∨ ∃ op p errno, (rootSpawns dir n).2
          = Outcome.returned (some (GoError.PathError op p errno)) := by
  cases n with
  | gone name errno => exact Or.inr ⟨_, _, _, rfl⟩
  | file name regular size data =>
    by_cases hr : (regular && decide (size > 0)) = true
    · simp [rootSpawns, hr]
    · simp [rootSpawns, hr]
  | dir name listErr entries =>
    cases listErr with
    | none => simpa [rootSpawns] using entrySpawns_ret dir entries
    | some errno => exact Or.inr ⟨_, _, _, rfl⟩

theorem Walk_visit (dir : String) (n : Node) :
    Walk (visit dir) dir [] n = rootSpawns dir n := by
  cases n with
  | gone name errno => simp [Walk, lstat, visit, rootSpawns]
  | file name regular size data =>
    cases regular with
    | false => simp [Walk, walk, lstat, visit, rootSpawns, FileInfo.IsDir, FileInfo.IsRegular]
    | true =>
      by_cases hsz : size > 0
      · simp [Walk, walk, lstat, visit, rootSpawns, FileInfo.IsDir, FileInfo.IsRegular, hsz]
      · simp [Walk, walk, lstat, visit, rootSpawns, FileInfo.IsDir, FileInfo.IsRegular, hsz]
  | dir name listErr entries =>
    cases listErr with
    | some errno =>
      simp [Walk, walk, lstat, visit, rootSpawns, FileInfo.IsDir, FileInfo.IsRegular]
    | none =>
      have hne : (entrySpawns dir entries).2 ≠ Outcome.returned (some GoError.SkipDir) := by
        rcases entrySpawns_ret dir entries with h | ⟨op, p, errno, h⟩ <;> simp [h]
      simp [Walk, walk, lstat, visit, rootSpawns, FileInfo.IsDir, FileInfo.IsRegular,
        walkNames_visit, hne]

/-! ## The step relation: what is sent and read back -/

theorem totalM_set (f : Task → Multiset pair) (l : List Task) (i : Nat) (t t' : Task)
    (h : l[i]? = some t) : totalM f (l.set i t') + f t = totalM f l + f t' := by
  induction l generalizing i with
  | nil => simp at h
  | cons x xs ih =>
    cases i with
    | zero =>
      simp only [List.getElem?_cons_zero, Option.some.injEq] at h
      subst h
      simp only [totalM, List.set_cons_zero, List.map_cons, List.sum_cons]
      abel
    | succ j =>
      simp only [List.getElem?_cons_succ] at h
      have := ih j h
      simp only [totalM, List.set_cons_succ, List.map_cons, List.sum_cons] at this ⊢
      rw [add_assoc, this, add_assoc]

theorem totalM_append (f : Task → Multiset pair) (l l' : List Task) :
    totalM f (l ++ l') = totalM f l + totalM f l' := by
  simp [totalM]

theorem spawnsPairs_entrySpawns (dir : String) (entries : List Node) :
    spawnsPairs (entrySpawns dir entries).1 = entriesPairs dir entries := by
  induction entries with
  | nil => simp [entrySpawns, entriesPairs, spawnsPairs]
  | cons n rest ih =>
    cases n with
    | gone name errno => simp [entrySpawns, entriesPairs, spawnsPairs]
    | file name regular size data =>
      by_cases hr : (regular && decide (size > 0)) = true
      · simp [entrySpawns, entriesPairs, spawnsPairs, spawnPairs, hr, ih]
      · simp [entrySpawns, entriesPairs, spawnsPairs, spawnPairs, hr, ih]
    | dir name listErr entries =>
      cases listErr with
      | none => simp [entrySpawns, entriesPairs, spawnsPairs, spawnPairs, ih]
      | some errno => simp [entrySpawns, entriesPairs, spawnsPairs]

theorem spawnsPairs_rootSpawns (dir : String) (n : Node) :
    spawnsPairs (rootSpawns dir n).1 = walkerPairs dir n := by
  cases n with
  | gone name errno => simp [rootSpawns, walkerPairs, spawnsPairs]
  | file name regular size data =>
    by_cases hr : (regular && decide (size > 0)) = true
    · simp [rootSpawns, walkerPairs, spawnsPairs, spawnPairs, hr]
    · simp [rootSpawns, walkerPairs, spawnsPairs, spawnPairs, hr]
  | dir name listErr entries =>
    cases listErr with
    | none => simpa [rootSpawns, walkerPairs] using spawnsPairs_entrySpawns dir entries
    | some errno => simp [rootSpawns, walkerPairs, spawnsPairs]

theorem future_spawnTask (sp : Spawn) : (spawnTask sp).future = (spawnPairs sp : Multiset pair) := by
  cases sp <;> rfl

theorem returns_spawnTask (sp : Spawn) : (spawnTask sp).returns = true := by
  cases sp <;> rfl

theorem rootSpawns_ne_panicked (dir : String) (n : Node) :
    (rootSpawns dir n).2 ≠ Outcome.panicked := by
  rcases rootSpawns_ret dir n with h | ⟨op, p, errno, h⟩ <;> simp [h]

theorem head?_set_append (l : List Task) (i : Nat) (t t' : Task) (extra : List Task)
    (heq : l[i]? = some t) (P : Task → Prop) (h : ∃ x, l.head? = some x ∧ P x)
    (hP : P t → P t') : ∃ x, (l.set i t' ++ extra).head? = some x ∧ P x := by
  cases l with
  | nil => simp at heq
  | cons y ys =>
    obtain ⟨x, hx, hPx⟩ := h
    simp only [List.head?_cons, Option.some.injEq] at hx
    subst hx
    cases i with
    | zero =>
      simp only [List.getElem?_cons_zero, Option.some.injEq] at heq
      subst heq
      exact ⟨t', by simp, hP hPx⟩
    | succ j => exact ⟨y, by simp, hPx⟩

/-- A step of goroutine `i` from `t` to `t'` that starts the goroutines `extra` and leaves
`main` where it is keeps the second invariant, when the pairs sent plus those still to send
stay the same. -/
theorem inv2_of_move {K : Nat} {root : Node} {s s' : State} {i : Nat} {t : Task} (t' : Task)
    (extra : List Task) (h : Inv K s) (h2 : Inv2 root s) (heq : s.tasks[i]? = some t)
    (hrun : t.running = 1)
    (htasks : s'.tasks = s.tasks.set i t' ++ extra)
    (hmain : s'.main = s.main)
    (hret : t'.returns = true) (hretx : ∀ x ∈ extra, x.returns = true)
    (hfut : (s'.pairs : Multiset pair) + t'.future + totalM Task.future extra
      = (s.pairs : Multiset pair) + t.future)
    (hroot : t.isRoot root → t'.isRoot root) : Inv2 root s' := by
  have hnp := not_pastWait h heq hrun
  have hcalled := called_of_task h heq
  have e1 := totalM_set Task.future s.tasks i t t' heq
  refine ⟨?_, ?_, ?_, ?_, ?_, ?_, ?_, ?_⟩
  · rw [hmain]
    exact h2.no_crash
  · intro x hx
    rw [htasks, List.mem_append] at hx
    rcases hx with hx | hx
    · rcases List.mem_or_eq_of_mem_set hx with hx | hx
      · exact h2.returns x hx
      · rw [hx]
        exact hret
    · exact hretx x hx
  · rw [htasks, totalM_append, hmain, ← h2.pairs_eq]
    have e2 : (s'.pairs : Multiset pair) + (totalM Task.future (s.tasks.set i t')
        + totalM Task.future extra) + t.future
        = (s.pairs : Multiset pair) + totalM Task.future s.tasks + t.future := by
      calc (s'.pairs : Multiset pair) + (totalM Task.future (s.tasks.set i t')
            + totalM Task.future extra) + t.future
          = ((s'.pairs : Multiset pair) + totalM Task.future extra)
              + (totalM Task.future (s.tasks.set i t') + t.future) := by abel
        _ = ((s'.pairs : Multiset pair) + totalM Task.future extra)
              + (totalM Task.future s.tasks + t'.future) := by rw [e1]
        _ = ((s'.pairs : Multiset pair) + t'.future + totalM Task.future extra)
              + totalM Task.future s.tasks := by abel
        _ = ((s.pairs : Multiset pair) + t.future) + totalM Task.future s.tasks := by rw [hfut]
        _ = (s.pairs : Multiset pair) + totalM Task.future s.tasks + t.future := by abel
    have e3 := add_right_cancel e2
    rw [e3]
  · intro _
    rw [htasks]
    exact head?_set_append s.tasks i t t' extra heq _ (h2.root_task hcalled) hroot
  · intro hr e
    rw [hmain]
    exact h2.not_fatal hr e
  · intro hm
    rw [hmain] at hm
    exact h2.walked hm
  · intro hm
    rw [hmain] at hm
    rcases hm with hm | hm <;> rw [hm] at hnp <;> cases hnp
  · intro hm
    rw [hmain] at hm
    rw [hm] at hnp
    cases hnp

theorem inv2_stepTask (K : Nat) (root : Node) (s s' : State) (i : Nat) (h : Inv K s)
    (h2 : Inv2 root s) (hs : stepTask K s i = some s') : Inv2 root s' := by
  unfold stepTask at hs
  split at hs
  · simp at hs
  · split at hs
    · simp at hs
    · rename_i dir n heq
      split at hs
      · rename_i hlt
        simp only [Option.some.injEq] at hs
        subst hs
        refine inv2_of_move (.walkDir1 (Walk (visit dir) dir [] n).1 (Walk (visit dir) dir [] n).2)
          [] h h2 heq rfl (List.append_nil _).symm rfl ?_ (by simp) ?_ ?_
        · simp [Task.returns, Walk_visit, rootSpawns_ne_panicked]
        · simp [Task.future, totalM, Walk_visit, spawnsPairs_rootSpawns]
        · rintro ⟨hd, hn⟩
          subst hd hn
          simp [Task.isRoot, Walk_visit]
      · simp at hs
    · rename_i sp todo ret heq
      simp only [Option.some.injEq] at hs
      subst hs
      refine inv2_of_move (.walkDir1go sp todo ret) [] h h2 heq rfl (List.append_nil _).symm rfl (by simpa [Task.returns] using h2.returns _ (List.getElem?_mem heq))
        (by simp [returns_spawnTask]) ?_ (by simp [Task.isRoot])
      simp only [totalM, List.map_cons, List.map_nil, List.sum_cons, List.sum_nil,
        future_spawnTask]
      simp only [Task.future, spawnsPairs, ← Multiset.coe_add, add_zero, zero_add]
      try abel
    · rename_i sp todo ret heq
      simp only [Option.some.injEq] at hs
      subst hs
      refine inv2_of_move (.walkDir1 todo ret) [spawnTask sp] h h2 heq rfl rfl rfl (by simpa [Task.returns] using h2.returns _ (List.getElem?_mem heq))
        (by simp [returns_spawnTask]) ?_ (by simp [Task.isRoot])
      simp only [totalM, List.map_cons, List.map_nil, List.sum_cons, List.sum_nil,
        future_spawnTask]
      simp only [Task.future, spawnsPairs, ← Multiset.coe_add, add_zero, zero_add]
      try abel
    · rename_i ret heq
      split at hs
      · simp at hs
      · rename_i hlim
        simp only [Option.some.injEq] at hs
        subst hs
        refine inv2_of_move (.walkDir2 ret) [] h h2 heq rfl (List.append_nil _).symm rfl (by simpa [Task.returns] using h2.returns _ (List.getElem?_mem heq))
          (by simp [returns_spawnTask]) ?_ (by simp [Task.isRoot])
        simp only [totalM, List.map_cons, List.map_nil, List.sum_cons, List.sum_nil,
          future_spawnTask]
        simp only [Task.future, spawnsPairs, ← Multiset.coe_add, add_zero, zero_add]
        try abel
    · rename_i ret heq
      split at hs
      · rename_i hz
        exfalso
        have := wg_pos h heq rfl
        omega
      · rename_i hz
        split at hs
        · rename_i hpanic
          exfalso
          have := h2.returns _ (List.getElem?_mem heq)
          simp [Task.returns, hpanic] at this
        · rename_i hpanic
          simp only [Option.some.injEq] at hs
          subst hs
          refine inv2_of_move (.exited ret) [] h h2 heq rfl (List.append_nil _).symm rfl (by simpa [Task.returns] using h2.returns _ (List.getElem?_mem heq))
            (by simp [returns_spawnTask]) ?_ (by simp [Task.isRoot])
          simp only [totalM, List.map_cons, List.map_nil, List.sum_cons, List.sum_nil,
            future_spawnTask]
          simp only [Task.future, spawnsPairs, ← Multiset.coe_add, add_zero, zero_add]
          try abel
    · rename_i path n heq
      split at hs
      · rename_i hlt
        simp only [Option.some.injEq] at hs
        subst hs
        refine inv2_of_move (.processFile1 path n) [] h h2 heq rfl (List.append_nil _).symm rfl (rfl)
          (by simp [returns_spawnTask]) ?_ (by simp [Task.isRoot])
        simp only [totalM, List.map_cons, List.map_nil, List.sum_cons, List.sum_nil,
          future_spawnTask]
        simp only [Task.future, spawnsPairs, ← Multiset.coe_add, add_zero, zero_add]
        try abel
      · simp at hs
    · rename_i path n heq
      split at hs
      · rename_i hopen
        simp only [Option.some.injEq] at hs
        subst hs
        refine inv2_of_move (.processFile2 path n) [] h h2 heq rfl (List.append_nil _).symm rfl (rfl)
          (by simp [returns_spawnTask]) ?_ (by simp [Task.isRoot])
        simp only [totalM, List.map_cons, List.map_nil, List.sum_cons, List.sum_nil,
          future_spawnTask]
        simp only [Task.future, spawnsPairs, ← Multiset.coe_add, add_zero, zero_add]
        try abel
      · rename_i hopen
        simp only [Option.some.injEq] at hs
        subst hs
        refine inv2_of_move (.processFile3 (hashFile n path).1) [] h h2 heq rfl (List.append_nil _).symm rfl (rfl)
          (by simp [returns_spawnTask]) ?_ (by simp [Task.isRoot])
        simp only [totalM, List.map_cons, List.map_nil, List.sum_cons, List.sum_nil,
          future_spawnTask]
        simp only [Task.future, spawnsPairs, ← Multiset.coe_add, add_zero, zero_add]
        try abel
    · rename_i path n heq
      simp only [Option.some.injEq] at hs
      subst hs
      refine inv2_of_move (.processFile3 (hashFile n path).1) [] h h2 heq rfl (List.append_nil _).symm rfl (rfl)
        (by simp [returns_spawnTask]) ?_ (by simp [Task.isRoot])
      simp only [totalM, List.map_cons, List.map_nil, List.sum_cons, List.sum_nil,
        future_spawnTask]
      simp only [Task.future, spawnsPairs, ← Multiset.coe_add, add_zero, zero_add]
      try abel
    · rename_i p heq
      split at hs
      · rename_i hcl
        exfalso
        have := not_closed h heq rfl
        simp_all
      · rename_i hcl
        simp only [Option.some.injEq] at hs
        subst hs
        refine inv2_of_move (.processFile4) [] h h2 heq rfl (List.append_nil _).symm rfl (rfl)
          (by simp [returns_spawnTask]) ?_ (by simp [Task.isRoot])
        simp only [totalM, List.map_cons, List.map_nil, List.sum_cons, List.sum_nil,
          future_spawnTask]
        simp only [Task.future, spawnsPairs, ← Multiset.coe_add, add_zero, zero_add]
        try abel
    · rename_i heq
      split at hs
      · simp at hs
      · rename_i hlim
        simp only [Option.some.injEq] at hs
        subst hs
        refine inv2_of_move (.processFile5) [] h h2 heq rfl (List.append_nil _).symm rfl (rfl)
          (by simp [returns_spawnTask]) ?_ (by simp [Task.isRoot])
        simp only [totalM, List.map_cons, List.map_nil, List.sum_cons, List.sum_nil,
          future_spawnTask]
        simp only [Task.future, spawnsPairs, ← Multiset.coe_add, add_zero, zero_add]
        try abel
    · rename_i heq
      split at hs
      · rename_i hz
        exfalso
        have := wg_pos h heq rfl
        omega
      · rename_i hz
        simp only [Option.some.injEq] at hs
        subst hs
        refine inv2_of_move (.exited (.returned none)) [] h h2 heq rfl (List.append_nil _).symm rfl (rfl)
          (by simp [returns_spawnTask]) ?_ (by simp [Task.isRoot])
        simp only [totalM, List.map_cons, List.map_nil, List.sum_cons, List.sum_nil,
          future_spawnTask]
        simp only [Task.future, spawnsPairs, ← Multiset.coe_add, add_zero, zero_add]
        try abel
    · simp at hs

theorem inv2_init (root : Node) : Inv2 root init := by
  constructor <;> simp [init, totalM, Main.future, Main.called, Main.pastWait]

theorem inv2_stepMain (K : Nat) (root : Node) (s s' : State) (h : Inv K s) (h2 : Inv2 root s)
    (hs : stepMain root s = some s') : Inv2 root s' := by
  obtain ⟨g1, g2, g3, g4, g5, g6, g7, g8⟩ := h2
  unfold stepMain at hs
  split at hs
  · rename_i hm
    simp only [Option.some.injEq] at hs
    subst hs
    constructor <;> simp_all [Main.future, Main.called, Main.pastWait]
  · rename_i hm
    have ht : s.tasks = [] := h.not_called (by rw [hm]; rfl)
    simp only [Option.some.injEq] at hs
    subst hs
    constructor <;> simp_all [Main.future, Main.called, totalM, Task.future, Task.returns,
      Task.isRoot, Main.pastWait]
  · rename_i hm
    split at hs
    · rename_i hhead
      simp only [Option.some.injEq] at hs
      subst hs
      have hroot := g4 (by rw [hm]; rfl)
      have hret : (rootSpawns root.name root).2 = Outcome.returned none := by
        obtain ⟨t, ht, hr⟩ := hroot
        rw [hhead] at ht
        simp only [Option.some.injEq] at ht
        subst ht
        exact hr.symm
      constructor <;> simp_all [Main.future, Main.called, Main.pastWait]
    · rename_i err hhead
      simp only [Option.some.injEq] at hs
      subst hs
      have hroot := g4 (by rw [hm]; rfl)
      have hret : (rootSpawns root.name root).2 = Outcome.returned (some err) := by
        obtain ⟨t, ht, hr⟩ := hroot
        rw [hhead] at ht
        simp only [Option.some.injEq] at ht
        subst ht
        exact hr.symm
      constructor <;> simp_all [Main.future, Main.called, Main.pastWait]
    · simp at hs
  · rename_i hm
    split at hs
    · simp only [Option.some.injEq] at hs
      subst hs
      constructor <;> simp_all [Main.future, Main.called, Main.pastWait]
    · simp at hs
  · rename_i hm
    simp only [Option.some.injEq] at hs
    subst hs
    constructor <;> simp_all [Main.future, Main.called, Main.pastWait]
  · rename_i hm
    simp only [Option.some.injEq] at hs
    subst hs
    constructor <;> simp_all [Main.future, Main.called, Main.pastWait]
  · rename_i hm
    simp only [Option.some.injEq] at hs
    subst hs
    constructor <;> simp_all [Main.future, Main.called, Main.pastWait]
  · simp at hs

theorem inv2_step (K : Nat) (root : Node) (s s' : State) (a : Actor) (h : Inv K s)
    (h2 : Inv2 root s) (hs : step K root s a = some s') : Inv2 root s' := by
  cases a with
  | main => exact inv2_stepMain K root s s' h h2 hs
  | task i => exact inv2_stepTask K root s s' i h h2 hs

theorem inv2_run (K : Nat) (root : Node) (sched : List Actor) (s s' : State) (h : Inv K s)
    (h2 : Inv2 root s) (hs : run K root s sched = some s') : Inv2 root s' := by
  induction sched generalizing s with
  | nil =>
    simp only [run, Option.some.injEq] at hs
    exact hs ▸ h2
  | cons a rest ih =>
    simp only [run] at hs
    cases hstep : step K root s a with
    | none => simp [hstep] at hs
    | some s₁ =>
      simp only [hstep, Option.some_bind] at hs
      exact ih s₁ (inv_step K root s s₁ a h hstep) (inv2_step K root s s₁ a h h2 hstep) hs

theorem inv2_reachable (K : Nat) (root : Node) (s : State) (h : Reachable K root s) :
    Inv2 root s := by
  obtain ⟨sched, hs⟩ := h
  exact inv2_run K root sched init s (inv_init K) (inv2_init root) hs

/-! ## Every run ends -/

theorem spawnsWeight_entrySpawns (dir : String) (entries : List Node) :
    spawnsWeight (entrySpawns dir entries).1 ≤ entriesWeight entries := by
  induction entries with
  | nil => simp [entrySpawns, spawnsWeight]
  | cons n rest ih =>
    cases n with
    | gone name errno => simp [entrySpawns, spawnsWeight]
    | file name regular size data =>
      by_cases hr : (regular && decide (size > 0)) = true
      · simp only [entrySpawns, hr, if_true, spawnsWeight, spawnWeight, entriesWeight,
          walkerWeight]
        omega
      · simp only [entrySpawns, hr, entriesWeight, walkerWeight]
        simp only [Bool.false_eq_true, if_false]
        omega
    | dir name listErr entries =>
      cases listErr with
      | none =>
        simp only [entrySpawns, spawnsWeight, spawnWeight, entriesWeight]
        omega
      | some errno => simp [entrySpawns, spawnsWeight]

theorem spawnsWeight_rootSpawns (dir : String) (n : Node) :
    spawnsWeight (rootSpawns dir n).1 + 3 ≤ walkerWeight n := by
  cases n with
  | gone name errno => simp [rootSpawns, spawnsWeight, walkerWeight]
  | file name regular size data =>
    by_cases hr : (regular && decide (size > 0)) = true
    · simp [rootSpawns, hr, spawnsWeight, spawnWeight, walkerWeight]
    · simp [rootSpawns, hr, spawnsWeight, walkerWeight]
  | dir name listErr entries =>
    cases listErr with
    | none =>
      have := spawnsWeight_entrySpawns dir entries
      simp only [rootSpawns, walkerWeight]
      omega
    | some errno => simp [rootSpawns, spawnsWeight, walkerWeight]

theorem weight_spawnTask (sp : Spawn) : (spawnTask sp).weight = spawnWeight sp := by
  cases sp <;> rfl

theorem weight_pos_of_alive (root : Node) (m : Main) (h : m.alive = true) :
    0 < m.weight root := by
  cases m <;> simp [Main.alive, Main.weight] at h ⊢

/-- A step of goroutine `i` from `t` to `t'` that starts the goroutines `extra` lowers the
bound when the weights say so. -/
theorem stepsLeft_of_move {root : Node} {s s' : State} {i : Nat} {t : Task} (t' : Task)
    (extra : List Task) (heq : s.tasks[i]? = some t)
    (htasks : s'.tasks = s.tasks.set i t' ++ extra)
    (hmain : s'.main = s.main)
    (hw : t'.weight + total Task.weight extra < t.weight) :
    stepsLeft root s' < stepsLeft root s := by
  have e := total_set Task.weight s.tasks i t t' heq
  rw [stepsLeft, stepsLeft, htasks, total_append, hmain]
  omega

theorem stepsLeft_of_crash {root : Node} {s s' : State} (halive : s.main.alive = true)
    (htasks : s'.tasks = s.tasks) (hmain : s'.main = Main.crashed) :
    stepsLeft root s' < stepsLeft root s := by
  have := weight_pos_of_alive root s.main halive
  have hz : Main.weight root Main.crashed = 0 := rfl
  rw [stepsLeft, stepsLeft, htasks, hmain, hz]
  omega

theorem stepsLeft_stepTask (K : Nat) (root : Node) (s s' : State) (i : Nat)
    (hs : stepTask K s i = some s') : stepsLeft root s' < stepsLeft root s := by
  unfold stepTask at hs
  split at hs
  · simp at hs
  · rename_i halive
    split at hs
    · simp at hs
    · rename_i dir n heq
      split at hs
      · rename_i hlt
        simp only [Option.some.injEq] at hs
        subst hs
        refine stepsLeft_of_move
          (.walkDir1 (Walk (visit dir) dir [] n).1 (Walk (visit dir) dir [] n).2) [] heq
          (List.append_nil _).symm rfl ?_
        have := spawnsWeight_rootSpawns dir n
        simp only [Task.weight, Walk_visit, total, List.map_nil, List.sum_nil]
        omega
      · simp at hs
    · rename_i sp todo ret heq
      simp only [Option.some.injEq] at hs
      subst hs
      refine stepsLeft_of_move (.walkDir1go sp todo ret) [] heq (List.append_nil _).symm rfl ?_
      try simp only [total_singleton, weight_spawnTask]
      simp [Task.weight, total, spawnsWeight] <;> omega
    · rename_i sp todo ret heq
      simp only [Option.some.injEq] at hs
      subst hs
      refine stepsLeft_of_move (.walkDir1 todo ret) [spawnTask sp] heq rfl rfl ?_
      try simp only [total_singleton, weight_spawnTask]
      simp [Task.weight, total, spawnsWeight] <;> omega
    · rename_i ret heq
      split at hs
      · simp at hs
      · rename_i hlim
        simp only [Option.some.injEq] at hs
        subst hs
        refine stepsLeft_of_move (.walkDir2 ret) [] heq (List.append_nil _).symm rfl ?_
        try simp only [total_singleton, weight_spawnTask]
        simp [Task.weight, total, spawnsWeight] <;> omega
    · rename_i ret heq
      split at hs
      · rename_i hz
        simp only [Option.some.injEq] at hs
        subst hs
        exact stepsLeft_of_crash (by simpa using halive) rfl rfl
      · rename_i hz
        split at hs
        · rename_i hpanic
          simp only [Option.some.injEq] at hs
          subst hs
          have e := total_set Task.weight s.tasks i _ (.exited ret) heq
          have := weight_pos_of_alive root s.main (by simpa using halive)
          have hz' : Main.weight root Main.crashed = 0 := rfl
          simp only [stepsLeft, hz', Task.weight] at e ⊢
          omega
        · rename_i hpanic
          simp only [Option.some.injEq] at hs
          subst hs
          refine stepsLeft_of_move (.exited ret) [] heq (List.append_nil _).symm rfl ?_
          try simp only [total_singleton, weight_spawnTask]
          simp [Task.weight, total, spawnsWeight] <;> omega
    · rename_i path n heq
      split at hs
      · rename_i hlt
        simp only [Option.some.injEq] at hs
        subst hs
        refine stepsLeft_of_move (.processFile1 path n) [] heq (List.append_nil _).symm rfl ?_
        try simp only [total_singleton, weight_spawnTask]
        simp [Task.weight, total, spawnsWeight] <;> omega
      · simp at hs
    · rename_i path n heq
      split at hs
      · rename_i hopen
        simp only [Option.some.injEq] at hs
        subst hs
        refine stepsLeft_of_move (.processFile2 path n) [] heq (List.append_nil _).symm rfl ?_
        try simp only [total_singleton, weight_spawnTask]
        simp [Task.weight, total, spawnsWeight] <;> omega
      · rename_i hopen
        simp only [Option.some.injEq] at hs
        subst hs
        refine stepsLeft_of_move (.processFile3 (hashFile n path).1) [] heq (List.append_nil _).symm rfl ?_
        try simp only [total_singleton, weight_spawnTask]
        simp [Task.weight, total, spawnsWeight] <;> omega
    · rename_i path n heq
      simp only [Option.some.injEq] at hs
      subst hs
      refine stepsLeft_of_move (.processFile3 (hashFile n path).1) [] heq (List.append_nil _).symm rfl ?_
      try simp only [total_singleton, weight_spawnTask]
      simp [Task.weight, total, spawnsWeight] <;> omega
    · rename_i p heq
      split at hs
      · rename_i hcl
        simp only [Option.some.injEq] at hs
        subst hs
        exact stepsLeft_of_crash (by simpa using halive) rfl rfl
      · rename_i hcl
        simp only [Option.some.injEq] at hs
        subst hs
        refine stepsLeft_of_move (.processFile4) [] heq (List.append_nil _).symm rfl ?_
        try simp only [total_singleton, weight_spawnTask]
        simp [Task.weight, total, spawnsWeight] <;> omega
    · rename_i heq
      split at hs
      · simp at hs
      · rename_i hlim
        simp only [Option.some.injEq] at hs
        subst hs
        refine stepsLeft_of_move (.processFile5) [] heq (List.append_nil _).symm rfl ?_
        try simp only [total_singleton, weight_spawnTask]
        simp [Task.weight, total, spawnsWeight] <;> omega
    · rename_i heq
      split at hs
      · rename_i hz
        simp only [Option.some.injEq] at hs
        subst hs
        exact stepsLeft_of_crash (by simpa using halive) rfl rfl
      · rename_i hz
        simp only [Option.some.injEq] at hs
        subst hs
        refine stepsLeft_of_move (.exited (.returned none)) [] heq (List.append_nil _).symm rfl ?_
        try simp only [total_singleton, weight_spawnTask]
        simp [Task.weight, total, spawnsWeight] <;> omega
    · simp at hs

theorem stepsLeft_stepMain (root : Node) (s s' : State) (hs : stepMain root s = some s') :
    stepsLeft root s' < stepsLeft root s := by
  unfold stepMain at hs
  split at hs
  · rename_i hm
    simp only [Option.some.injEq] at hs
    subst hs
    simp [stepsLeft, hm, Main.weight]
  · rename_i hm
    simp only [Option.some.injEq] at hs
    subst hs
    simp only [stepsLeft, hm, Main.weight, total_append, total_singleton, Task.weight]
    omega
  · rename_i hm
    split at hs
    · simp only [Option.some.injEq] at hs
      subst hs
      simp [stepsLeft, hm, Main.weight]
    · simp only [Option.some.injEq] at hs
      subst hs
      simp [stepsLeft, hm, Main.weight]
    · simp at hs
  · rename_i hm
    split at hs
    · simp only [Option.some.injEq] at hs
      subst hs
      simp [stepsLeft, hm, Main.weight]
    · simp at hs
  · rename_i hm
    simp only [Option.some.injEq] at hs
    subst hs
    simp [stepsLeft, hm, Main.weight]
  · rename_i hm
    simp only [Option.some.injEq] at hs
    subst hs
    simp [stepsLeft, hm, Main.weight]
  · rename_i hm
    simp only [Option.some.injEq] at hs
    subst hs
    simp [stepsLeft, hm, Main.weight]
  · simp at hs

theorem stepsLeft_step (K : Nat) (root : Node) (s s' : State) (a : Actor)
    (hs : step K root s a = some s') : stepsLeft root s' < stepsLeft root s := by
  cases a with
  | main => exact stepsLeft_stepMain root s s' hs
  | task i => exact stepsLeft_stepTask K root s s' i hs

theorem length_add_stepsLeft_le (K : Nat) (root : Node) (sched : List Actor) (s s' : State)
    (hs : run K root s sched = some s') : sched.length + stepsLeft root s' ≤ stepsLeft root s := by
  induction sched generalizing s with
  | nil =>
    simp only [run, Option.some.injEq] at hs
    subst hs
    simp
  | cons a rest ih =>
    simp only [run] at hs
    cases hstep : step K root s a with
    | none => simp [hstep] at hs
    | some s₁ =>
      simp only [hstep, Option.some_bind] at hs
      have h1 := ih s₁ hs
      have h2 := stepsLeft_step K root s s₁ a hstep
      simp only [List.length_cons]
      omega

/-! ## No run gets stuck -/

theorem exists_pos_of_total_pos (f : Task → Nat) (l : List Task) (h : 0 < total f l) :
    ∃ (i : Nat) (t : Task), l[i]? = some t ∧ 0 < f t := by
  induction l with
  | nil => simp [total] at h
  | cons x xs ih =>
    by_cases hx : 0 < f x
    · exact ⟨0, x, by simp, hx⟩
    · have h' : 0 < total f xs := by
        simp only [total, List.map_cons, List.sum_cons] at h ⊢
        omega
      obtain ⟨i, t, hi, ht⟩ := ih h'
      exact ⟨i + 1, t, by simpa using hi, ht⟩

theorem stepTask_of_token (K : Nat) (s : State) (i : Nat) (t : Task)
    (halive : s.main.alive = true) (heq : s.tasks[i]? = some t) (htok : 0 < t.tokens)
    (hlim : 0 < s.limit) : ∃ s', stepTask K s i = some s' := by
  have hl : s.limit ≠ 0 := by omega
  cases t with
  | walkDir1 todo ret =>
    cases todo with
    | nil => simp [stepTask, halive, heq, hl]
    | cons sp todo => simp [stepTask, halive, heq]
  | walkDir1go sp todo ret => simp [stepTask, halive, heq]
  | processFile1 path n =>
    by_cases ho : opens n = true <;> simp [stepTask, halive, heq, ho]
  | processFile2 path n => simp [stepTask, halive, heq]
  | processFile3 p =>
    by_cases hc : s.closed = true <;> simp [stepTask, halive, heq, hc]
  | processFile4 => simp [stepTask, halive, heq, hl]
  | walkDir0 dir n => simp [Task.tokens] at htok
  | walkDir2 ret => simp [Task.tokens] at htok
  | processFile0 path n => simp [Task.tokens] at htok
  | processFile5 => simp [Task.tokens] at htok
  | exited ret => simp [Task.tokens] at htok

theorem stepTask_of_room (K : Nat) (s : State) (i : Nat) (t : Task)
    (halive : s.main.alive = true) (heq : s.tasks[i]? = some t) (hrun : t.running = 1)
    (htok : t.tokens = 0) (hlim : s.limit < K) : ∃ s', stepTask K s i = some s' := by
  cases t with
  | walkDir0 dir n => simp [stepTask, halive, heq, hlim]
  | walkDir2 ret =>
    by_cases hz : s.wg = 0
    · simp [stepTask, halive, heq, hz]
    · by_cases hp : ret = Outcome.panicked <;> simp [stepTask, halive, heq, hz, hp]
  | processFile0 path n => simp [stepTask, halive, heq, hlim]
  | processFile5 =>
    by_cases hz : s.wg = 0 <;> simp [stepTask, halive, heq, hz]
  | exited ret => simp [Task.running] at hrun
  | walkDir1 todo ret => simp [Task.tokens] at htok
  | walkDir1go sp todo ret => simp [Task.tokens] at htok
  | processFile1 path n => simp [Task.tokens] at htok
  | processFile2 path n => simp [Task.tokens] at htok
  | processFile3 p => simp [Task.tokens] at htok
  | processFile4 => simp [Task.tokens] at htok

theorem tokens_le_one (t : Task) : t.tokens ≤ 1 := by
  cases t <;> simp [Task.tokens]

theorem registering_le_running (t : Task) : t.registering ≤ t.running := by
  cases t <;> simp [Task.registering, Task.running]

/-- With a Limiter of capacity at least 1, some goroutine can take a step whenever one of them
has not returned. -/
theorem stepTask_of_running (K : Nat) (hK : 0 < K) (s : State) (h : Inv K s)
    (halive : s.main.alive = true) (i : Nat) (t : Task) (heq : s.tasks[i]? = some t)
    (hrun : t.running = 1) : ∃ j s', stepTask K s j = some s' := by
  have hle := le_total Task.tokens s.tasks i t heq
  have h2 := h.limit_eq
  by_cases htok : 0 < t.tokens
  · obtain ⟨s', hs'⟩ := stepTask_of_token K s i t halive heq htok (by omega)
    exact ⟨i, s', hs'⟩
  · by_cases hlim : s.limit < K
    · obtain ⟨s', hs'⟩ := stepTask_of_room K s i t halive heq hrun (by omega) hlim
      exact ⟨i, s', hs'⟩
    · have h3 := h.limit_le
      obtain ⟨j, t', hj, ht'⟩ := exists_pos_of_total_pos Task.tokens s.tasks (by omega)
      obtain ⟨s', hs'⟩ := stepTask_of_token K s j t' halive hj ht' (by omega)
      exact ⟨j, s', hs'⟩

/-- With a Limiter of capacity at least 1, a state in which the process is still running has
a next step. -/
theorem progress (K : Nat) (hK : 0 < K) (root : Node) (s : State) (h : Inv K s)
    (h2 : Inv2 root s) (halive : s.main.alive = true) : ∃ a s', step K root s a = some s' := by
  cases hm : s.main with
  | add => exact ⟨Actor.main, _, by simp [step, stepMain, hm]; rfl⟩
  | call => exact ⟨Actor.main, _, by simp [step, stepMain, hm]; rfl⟩
  | close => exact ⟨Actor.main, _, by simp [step, stepMain, hm]; rfl⟩
  | recv => exact ⟨Actor.main, _, by simp [step, stepMain, hm]; rfl⟩
  | print => exact ⟨Actor.main, _, by simp [step, stepMain, hm]; rfl⟩
  | done => simp [hm, Main.alive] at halive
  | fatal e => simp [hm, Main.alive] at halive
  | crashed => simp [hm, Main.alive] at halive
  | walking =>
    obtain ⟨t, ht, hroot⟩ := h2.root_task (by rw [hm]; rfl)
    have heq : s.tasks[0]? = some t := by
      cases hl : s.tasks with
      | nil => simp [hl] at ht
      | cons x xs =>
        simp only [hl, List.head?_cons, Option.some.injEq] at ht
        simp [ht]
    by_cases hrun : t.running = 1
    · obtain ⟨j, s', hs'⟩ := stepTask_of_running K hK s h halive 0 t heq hrun
      exact ⟨Actor.task j, s', hs'⟩
    · cases t with
      | exited ret =>
        cases ret with
        | returned err =>
          cases err with
          | none => exact ⟨Actor.main, _, by simp [step, stepMain, hm, ht]; rfl⟩
          | some e => exact ⟨Actor.main, _, by simp [step, stepMain, hm, ht]; rfl⟩
        | panicked =>
          have := h2.returns _ (List.getElem?_mem heq)
          simp [Task.returns] at this
      | _ => simp [Task.running] at hrun
  | wait =>
    by_cases hz : s.wg = 0
    · exact ⟨Actor.main, _, by simp [step, stepMain, hm, hz]; rfl⟩
    · have h1 := h.wg_eq
      rw [outstanding, hm] at h1
      simp only [Main.registering] at h1
      have hpos : 0 < total Task.running s.tasks ∨ 0 < total Task.registering s.tasks := by
        omega
      have hex : ∃ (i : Nat) (t : Task), s.tasks[i]? = some t ∧ t.running = 1 := by
        rcases hpos with hp | hp
        · obtain ⟨i, t, hi, ht⟩ := exists_pos_of_total_pos _ _ hp
          refine ⟨i, t, hi, ?_⟩
          cases t <;> simp [Task.running] at ht ⊢
        · obtain ⟨i, t, hi, ht⟩ := exists_pos_of_total_pos _ _ hp
          refine ⟨i, t, hi, ?_⟩
          cases t <;> simp [Task.registering, Task.running] at ht ⊢
      obtain ⟨i, t, hi, ht⟩ := hex
      obtain ⟨j, s', hs'⟩ := stepTask_of_running K hK s h halive i t hi ht
      exact ⟨Actor.task j, s', hs'⟩

theorem run_append (K : Nat) (root : Node) (s : State) (a b : List Actor) :
    run K root s (a ++ b) = (run K root s a).bind (fun s' => run K root s' b) := by
  induction a generalizing s with
  | nil => simp [run]
  | cons x xs ih =>
    simp only [List.cons_append, run]
    cases hstep : step K root s x with
    | none => simp
    | some s₁ => simp [ih]

theorem reachable_run (K : Nat) (root : Node) (s s' : State) (sched : List Actor)
    (h : Reachable K root s) (hs : run K root s sched = some s') : Reachable K root s' := by
  obtain ⟨sched₀, h₀⟩ := h
  exact ⟨sched₀ ++ sched, by rw [run_append, h₀]; simpa using hs⟩

/-- From every state that satisfies the invariants, some schedule leads to a state in which
the process has ended. -/
theorem exists_final (K : Nat) (hK : 0 < K) (root : Node) :
    ∀ (n : Nat) (s : State), stepsLeft root s ≤ n → Inv K s → Inv2 root s →
      ∃ sched s', run K root s sched = some s' ∧ s'.main.alive = false := by
  intro n
  induction n with
  | zero =>
    intro s hn h h2
    cases halive : s.main.alive with
    | false => exact ⟨[], s, rfl, halive⟩
    | true =>
      obtain ⟨a, s₁, hs₁⟩ := progress K hK root s h h2 halive
      have := stepsLeft_step K root s s₁ a hs₁
      omega
  | succ n ih =>
    intro s hn h h2
    cases halive : s.main.alive with
    | false => exact ⟨[], s, rfl, halive⟩
    | true =>
      obtain ⟨a, s₁, hs₁⟩ := progress K hK root s h h2 halive
      have hlt := stepsLeft_step K root s s₁ a hs₁
      obtain ⟨sched, s', hrun, hfin⟩ :=
        ih s₁ (by omega) (inv_step K root s s₁ a h hs₁) (inv2_step K root s s₁ a h h2 hs₁)
      exact ⟨a :: sched, s', by simp [run, hs₁, hrun], hfin⟩

/-! ## Trees that can be read -/

theorem entrySpawns_readable (dir : String) (entries : List Node)
    (h : readableAll entries = true) : (entrySpawns dir entries).2 = Outcome.returned none := by
  induction entries with
  | nil => rfl
  | cons n rest ih =>
    simp only [readableAll, Bool.and_eq_true] at h
    cases n with
    | gone name errno => simp [readable] at h
    | file name regular size data =>
      by_cases hr : (regular && decide (size > 0)) = true
      · simpa [entrySpawns, hr] using ih h.2
      · simpa [entrySpawns, hr] using ih h.2
    | dir name listErr entries =>
      cases listErr with
      | none => simpa [entrySpawns] using ih h.2
      | some errno => simp [readable] at h

theorem rootSpawns_readable (dir : String) (n : Node) (h : readable n = true) :
    (rootSpawns dir n).2 = Outcome.returned none := by
  cases n with
  | gone name errno => simp [readable] at h
  | file name regular size data =>
    by_cases hr : (regular && decide (size > 0)) = true
    · simp [rootSpawns, hr]
    · simp [rootSpawns, hr]
  | dir name listErr entries =>
    cases listErr with
    | none => exact entrySpawns_readable dir entries (by simpa [readable] using h)
    | some errno => simp [readable] at h

mutual
theorem walkerPairs_readable (dir : String) :
    ∀ n : Node, readable n = true → (walkerPairs dir n).map pair.path = regularFiles dir n
  | .gone _ _, h => by simp [readable] at h
  | .file _ regular size (.content _), _ => by
    by_cases hr : (regular && decide (size > 0)) = true
    · simp [walkerPairs, regularFiles, hashFile, hr]
    · simp [walkerPairs, regularFiles, hr]
  | .file _ _ _ (.openFails _), h => by simp [readable] at h
  | .file _ _ _ (.readFails _), h => by simp [readable] at h
  | .dir _ (some _) _, h => by simp [readable] at h
  | .dir _ none entries, h => by
    have := entriesPairs_readable dir entries (by simpa [readable] using h)
    simpa [walkerPairs, regularFiles] using this
theorem entriesPairs_readable (dir : String) :
    ∀ entries : List Node, readableAll entries = true →
      (entriesPairs dir entries).map pair.path = regularFilesIn dir entries
  | [], _ => by simp [entriesPairs, regularFilesIn]
  | .gone _ _ :: _, h => by simp [readableAll, readable] at h
  | .file name regular size (.content b) :: rest, h => by
    have ih := entriesPairs_readable dir rest (by
      simp only [readableAll, Bool.and_eq_true] at h
      exact h.2)
    by_cases hr : (regular && decide (size > 0)) = true
    · simp [entriesPairs, regularFilesIn, regularFiles, hashFile, hr, ih, Node.name]
    · simp [entriesPairs, regularFilesIn, regularFiles, hr, ih, Node.name]
  | .file _ _ _ (.openFails _) :: _, h => by simp [readableAll, readable] at h
  | .file _ _ _ (.readFails _) :: _, h => by simp [readableAll, readable] at h
  | .dir _ (some _) _ :: _, h => by simp [readableAll, readable] at h
  | .dir name none entries :: rest, h => by
    simp only [readableAll, Bool.and_eq_true] at h
    have ih := entriesPairs_readable dir rest h.2
    have ih2 := walkerPairs_readable (Join dir name) (.dir name none entries) h.1
    simp [entriesPairs, regularFilesIn, ih, ih2, Node.name]
end

/-! ## The deterministic scheduler -/

theorem pick_step (K : Nat) (root : Node) (s s' : State) (h : pick K root s = some s') :
    ∃ a, step K root s a = some s' := by
  unfold pick at h
  split at h
  · rename_i s₁ hs₁
    simp only [Option.some.injEq] at h
    subst h
    exact ⟨Actor.main, hs₁⟩
  · obtain ⟨i, _, hi⟩ := List.exists_of_findSome?_eq_some h
    exact ⟨Actor.task i, hi⟩

theorem exec_reachable (K : Nat) (root : Node) (fuel : Nat) (s : State)
    (h : Reachable K root s) : Reachable K root (exec K root fuel s) := by
  induction fuel generalizing s with
  | zero => exact h
  | succ n ih =>
    simp only [exec]
    cases hp : pick K root s with
    | none => exact h
    | some s₁ =>
      obtain ⟨a, ha⟩ := pick_step K root s s₁ hp
      exact ih s₁ (reachable_run K root s s₁ [a] h (by simp [run, ha]))

theorem reachable_init (K : Nat) (root : Node) : Reachable K root init := ⟨[], rfl⟩

theorem stateAfter_reachable (K : Nat) (root : Node) (sched : List Actor) :
    Reachable K root (stateAfter K root sched) := by
  unfold stateAfter
  cases h : run K root init sched with
  | none => exact reachable_init K root
  | some s => exact ⟨sched, h⟩

/-! ## When the counter is zero -/

theorem exited_of_wg_zero (K : Nat) (s : State) (h : Inv K s) (hz : s.wg = 0) :
    ∀ t ∈ s.tasks, ∃ ret, t = Task.exited ret := by
  intro t ht
  obtain ⟨i, hi⟩ := List.mem_iff_getElem?.mp ht
  have hle := le_total Task.running s.tasks i t hi
  have h1 := h.wg_eq
  rw [outstanding] at h1
  have hr : t.running = 0 := by omega
  cases t with
  | exited ret => exact ⟨ret, rfl⟩
  | _ => simp [Task.running] at hr

theorem totalM_future_of_exited (l : List Task) (h : ∀ t ∈ l, ∃ ret, t = Task.exited ret) :
    totalM Task.future l = 0 := by
  induction l with
  | nil => rfl
  | cons x xs ih =>
    obtain ⟨ret, hx⟩ := h x (List.mem_cons_self _ _)
    have := ih (fun t ht => h t (List.mem_cons_of_mem _ ht))
    simp only [totalM, List.map_cons, List.sum_cons] at this ⊢
    rw [this, hx]
    rfl

/-- In a state where `main` has printed the report, the values sent on `pairs` are, up to
their order, the pairs expected from the tree, and the report is that of their grouping. -/
theorem done_pairs (K : Nat) (root : Node) (s : State) (h : Reachable K root s)
    (hd : s.main = Main.done) :
    s.pairs.Perm (walkerPairs root.name root)
    ∧ s.r = some (collectHashes s.pairs)
    ∧ s.out = some (report (collectHashes s.pairs)) := by
  have hi := inv_reachable K root s h
  have hi2 := inv2_reachable K root s h
  have hz : s.wg = 0 := hi.past_wg (by rw [hd]; rfl)
  have hex := exited_of_wg_zero K s hi hz
  have hf := totalM_future_of_exited s.tasks hex
  have hp := hi2.pairs_eq
  rw [hf, hd] at hp
  simp only [Main.future, add_zero] at hp
  exact ⟨Multiset.coe_eq_coe.mp hp, hi2.read_back (Or.inr hd), hi2.printed hd⟩

/-! ## The claims about runs -/

/-- C2 (as amended): for every Limiter capacity `K ≥ 1` and every directory tree in which
every entry can be inspected, every directory can be listed and every file can be opened and
read, no run of the bounded fan-out variant aborts or crashes; in every run that has printed its report the map read back
from the Aggregator has unique keys and the paths over all its groups are, with multiplicity,
exactly the paths of the regular files of size greater than 0 of the tree at any depth (so
empty files, directories and non-regular entries are in no group); every run can be continued
to such a state, and no run takes more than `stepsLeft root init` steps. -/
theorem fanout_groups_are_the_regular_nonempty_files (K : Nat) (hK : 0 < K) (root : Node)
    (hr : readable root = true) :
    (∀ s, Reachable K root s → s.main ≠ Main.crashed ∧ ∀ e, s.main ≠ Main.fatal e)
    ∧ (∀ s, Reachable K root s → s.main = Main.done →
        ∃ r, s.r = some r ∧ s.out = some (report r) ∧ (keys r).Nodup
          ∧ (allPaths r).Perm (regularFiles root.name root))
    ∧ (∀ s, Reachable K root s →
        ∃ sched s', run K root s sched = some s' ∧ s'.main = Main.done)
    ∧ (∀ sched s, run K root init sched = some s → sched.length ≤ stepsLeft root init) := by
  have hret := rootSpawns_readable root.name root hr
  have hsafe : ∀ s, Reachable K root s → s.main ≠ Main.crashed ∧ ∀ e, s.main ≠ Main.fatal e :=
    fun s h => ⟨(inv2_reachable K root s h).no_crash, (inv2_reachable K root s h).not_fatal hret⟩
  refine ⟨hsafe, ?_, ?_, ?_⟩
  · intro s h hd
    obtain ⟨hp, hrb, hout⟩ := done_pairs K root s h hd
    refine ⟨collectHashes s.pairs, hrb, hout, nodup_keys_collectHashes _, ?_⟩
    refine (allPaths_collectHashes s.pairs).trans ?_
    rw [← walkerPairs_readable root.name root hr]
    exact hp.map _
  · intro s h
    obtain ⟨sched, s', hrun, hfin⟩ := exists_final K hK root (stepsLeft root s) s (le_refl _)
      (inv_reachable K root s h) (inv2_reachable K root s h)
    refine ⟨sched, s', hrun, ?_⟩
    have h' := reachable_run K root s s' sched h hrun
    have hs' := hsafe s' h'
    cases hm : s'.main with
    | done => rfl
    | crashed => exact absurd hm hs'.1
    | fatal e => exact absurd hm (hs'.2 e)
    | _ => simp [hm, Main.alive] at hfin
  · intro sched s hrun
    have := length_add_stepsLeft_le K root sched init s hrun
    omega

set_option maxRecDepth 100000 in
/-- C2 (witness): capacity 3 on `sampleTree`. -/
theorem fanout_groups_are_the_regular_nonempty_files_witness :
    readable sampleTree = true
    ∧ sortedTree sampleTree = true
    ∧ regularFiles sampleTree.name sampleTree = ["r/a", "r/c", "r/x/b"]
    ∧ (∀ s, Reachable 3 sampleTree s → s.main = Main.done →
        ∃ r, s.r = some r ∧ s.out = some (report r) ∧ (keys r).Nodup
          ∧ (allPaths r).Perm (regularFiles sampleTree.name sampleTree))
    ∧ (∀ s, Reachable 3 sampleTree s →
        ∃ sched s', run 3 sampleTree s sched = some s' ∧ s'.main = Main.done) :=
  ⟨by decide, by decide, by decide,
    (fanout_groups_are_the_regular_nonempty_files 3 (by decide) sampleTree (by decide)).2.1,
    (fanout_groups_are_the_regular_nonempty_files 3 (by decide) sampleTree (by decide)).2.2.1⟩

/-- C8: the grouping does not depend on the order of arrival, up to the order inside a group.
For every sequence of pairs and every permutation of it, `collectHashes` yields maps with the
same keys, and under every key the two path sequences are permutations of each other.  Hence
two runs on the same tree that have printed their report, whatever their schedules (and
Limiter capacities), have read back maps with the same keys and, under every key, the same
paths up to order. -/
theorem grouping_independent_of_arrival_order :
    (∀ ps qs : List pair, ps.Perm qs →
      (∀ k, k ∈ keys (collectHashes ps) ↔ k ∈ keys (collectHashes qs))
      ∧ (∀ k, (mapGet (collectHashes ps) k).Perm (mapGet (collectHashes qs) k)))
    ∧ (∀ (K₁ K₂ : Nat) (root : Node) (s₁ s₂ : State),
        Reachable K₁ root s₁ → Reachable K₂ root s₂ → s₁.main = Main.done →
        s₂.main = Main.done →
        ∃ r₁ r₂, s₁.r = some r₁ ∧ s₂.r = some r₂
          ∧ (∀ k, k ∈ keys r₁ ↔ k ∈ keys r₂)
          ∧ (∀ k, (mapGet r₁ k).Perm (mapGet r₂ k))) := by
  refine ⟨collectHashes_perm_aux, ?_⟩
  intro K₁ K₂ root s₁ s₂ h₁ h₂ hd₁ hd₂
  obtain ⟨hp₁, hr₁, _⟩ := done_pairs K₁ root s₁ h₁ hd₁
  obtain ⟨hp₂, hr₂, _⟩ := done_pairs K₂ root s₂ h₂ hd₂
  have hperm : s₁.pairs.Perm s₂.pairs := hp₁.trans hp₂.symm
  exact ⟨_, _, hr₁, hr₂, collectHashes_perm_aux _ _ hperm⟩

/-- C8 (witness): the pairs `(h, a)`, `(g, b)`, `(h, c)` and the same pairs in the order
`(h, c)`, `(h, a)`, `(g, b)`. -/
theorem grouping_independent_of_arrival_order_witness :
    (mapGet (collectHashes [⟨"h", "a"⟩, ⟨"g", "b"⟩, ⟨"h", "c"⟩]) "h").Perm
      (mapGet (collectHashes [⟨"h", "c"⟩, ⟨"h", "a"⟩, ⟨"g", "b"⟩]) "h") :=
  (grouping_independent_of_arrival_order.1 [⟨"h", "a"⟩, ⟨"g", "b"⟩, ⟨"h", "c"⟩]
    [⟨"h", "c"⟩, ⟨"h", "a"⟩, ⟨"g", "b"⟩] (by decide)).2 "h"

/-- C9: in every reachable state of the step relation of the bounded fan-out variant, the
`WaitGroup` counter equals the number of tasks counted by their `wg.Add(1)` and not yet
discounted by their `wg.Done()`: the Walker and Hasher tasks (the root Walker included) that
have been started and have not completed, plus the tasks whose `wg.Add(1)` is done and whose
start is the very next statement; between spawns, when no such start is pending, it is
exactly the number of tasks started and not completed.  So the counter is zero only when
every task started has completed; `wg.Wait()` lets `main` proceed only in such a state; and
`pairs` is closed only in such a state. -/
theorem counter_counts_outstanding_tasks (K : Nat) (root : Node) (s : State)
    (h : Reachable K root s) :
    s.wg = total Task.running s.tasks + total Task.registering s.tasks + s.main.registering
    ∧ (total Task.registering s.tasks = 0 → s.main.registering = 0 →
        s.wg = total Task.running s.tasks)
    ∧ (s.wg = 0 → ∀ t ∈ s.tasks, ∃ ret, t = Task.exited ret)
    ∧ (s.main = Main.wait → ∀ s', stepMain root s = some s' →
        s.wg = 0 ∧ ∀ t ∈ s.tasks, ∃ ret, t = Task.exited ret)
    ∧ (s.main.pastWait = true → s.wg = 0 ∧ ∀ t ∈ s.tasks, ∃ ret, t = Task.exited ret)
    ∧ (s.closed = true → s.wg = 0 ∧ ∀ t ∈ s.tasks, ∃ ret, t = Task.exited ret) := by
  have hi := inv_reachable K root s h
  have hex := exited_of_wg_zero K s hi
  refine ⟨hi.wg_eq, ?_, hex, ?_, ?_, ?_⟩
  · intro h1 h2
    have := hi.wg_eq
    rw [outstanding] at this
    omega
  · intro hm s' hs'
    have hz : s.wg = 0 := by
      by_contra hne
      simp [stepMain, hm, hne] at hs'
    exact ⟨hz, hex hz⟩
  · intro hp
    exact ⟨hi.past_wg hp, hex (hi.past_wg hp)⟩
  · intro hc
    have hp := hi.closed_past hc
    exact ⟨hi.past_wg hp, hex (hi.past_wg hp)⟩

set_option maxRecDepth 100000 in
/-- C9 (witness): the state of `sampleTree` with capacity 3 after six steps of the
deterministic scheduler: the root Walker and the Hasher of `r/a` are outstanding, and the
Walker has done `wg.Add(1)` for the Hasher of `r/c`. -/
theorem counter_counts_outstanding_tasks_witness :
    Reachable 3 sampleTree (exec 3 sampleTree 6 init)
    ∧ (exec 3 sampleTree 6 init).wg
        = total Task.running (exec 3 sampleTree 6 init).tasks
          + total Task.registering (exec 3 sampleTree 6 init).tasks
          + (exec 3 sampleTree 6 init).main.registering
    ∧ (exec 3 sampleTree 6 init).wg = 3
    ∧ total Task.running (exec 3 sampleTree 6 init).tasks = 2
    ∧ total Task.registering (exec 3 sampleTree 6 init).tasks = 1 :=
  ⟨exec_reachable 3 sampleTree 6 init (reachable_init 3 sampleTree),
    (counter_counts_outstanding_tasks 3 sampleTree (exec 3 sampleTree 6 init)
      (exec_reachable 3 sampleTree 6 init (reachable_init 3 sampleTree))).1,
    by decide, by decide, by decide⟩

theorem getElem?_set_append (l : List Task) (i : Nat) (t t' : Task) (extra : List Task)
    (heq : l[i]? = some t) : (l.set i t' ++ extra)[i]? = some t' := by
  have hlt : i < l.length := by
    by_contra hge
    rw [List.getElem?_eq_none (by omega)] at heq
    cases heq
  rw [List.getElem?_append_left (by simpa using hlt)]
  simp [hlt]

/-- Every step of goroutine `i` changes the number of tokens in `limit` by exactly the change
of the number of tokens that the goroutine holds. -/
theorem stepTask_tokens (K : Nat) (s s' : State) (i : Nat) (hs : stepTask K s i = some s') :
    ∃ t t', s.tasks[i]? = some t ∧ s'.tasks[i]? = some t'
      ∧ s'.limit + t.tokens = s.limit + t'.tokens := by
  unfold stepTask at hs
  split at hs
  · simp at hs
  · split at hs
    · simp at hs
    · rename_i dir n heq
      split at hs
      · rename_i hlt
        simp only [Option.some.injEq] at hs
        subst hs
        refine ⟨_, .walkDir1 (Walk (visit dir) dir [] n).1 (Walk (visit dir) dir [] n).2, heq, by simpa using getElem?_set_append _ i _ _ [] heq, ?_⟩
        simp [Task.tokens] <;> omega
      · simp at hs
    · rename_i sp todo ret heq
      simp only [Option.some.injEq] at hs
      subst hs
      refine ⟨_, .walkDir1go sp todo ret, heq, by simpa using getElem?_set_append _ i _ _ [] heq, ?_⟩
      simp [Task.tokens] <;> omega
    · rename_i sp todo ret heq
      simp only [Option.some.injEq] at hs
      subst hs
      refine ⟨_, .walkDir1 todo ret, heq, getElem?_set_append _ _ _ _ _ heq, ?_⟩
      simp [Task.tokens] <;> omega
    · rename_i ret heq
      split at hs
      · simp at hs
      · rename_i hlim
        simp only [Option.some.injEq] at hs
        subst hs
        refine ⟨_, .walkDir2 ret, heq, by simpa using getElem?_set_append _ i _ _ [] heq, ?_⟩
        simp [Task.tokens] <;> omega
    · rename_i ret heq
      split at hs
      · rename_i hz
        simp only [Option.some.injEq] at hs
        subst hs
        exact ⟨_, _, heq, heq, rfl⟩
      · rename_i hz
        split at hs
        · rename_i hpanic
          simp only [Option.some.injEq] at hs
          subst hs
          refine ⟨_, .exited ret, heq, by simpa using getElem?_set_append _ i _ _ [] heq, ?_⟩
          simp [Task.tokens] <;> omega
        · rename_i hpanic
          simp only [Option.some.injEq] at hs
          subst hs
          refine ⟨_, .exited ret, heq, by simpa using getElem?_set_append _ i _ _ [] heq, ?_⟩
          simp [Task.tokens] <;> omega
    · rename_i path n heq
      split at hs
      · rename_i hlt
        simp only [Option.some.injEq] at hs
        subst hs
        refine ⟨_, .processFile1 path n, heq, by simpa using getElem?_set_append _ i _ _ [] heq, ?_⟩
        simp [Task.tokens] <;> omega
      · simp at hs
    · rename_i path n heq
      split at hs
      · rename_i hopen
        simp only [Option.some.injEq] at hs
        subst hs
        refine ⟨_, .processFile2 path n, heq, by simpa using getElem?_set_append _ i _ _ [] heq, ?_⟩
        simp [Task.tokens] <;> omega
      · rename_i hopen
        simp only [Option.some.injEq] at hs
        subst hs
        refine ⟨_, .processFile3 (hashFile n path).1, heq, by simpa using getElem?_set_append _ i _ _ [] heq, ?_⟩
        simp [Task.tokens] <;> omega
    · rename_i path n heq
      simp only [Option.some.injEq] at hs
      subst hs
      refine ⟨_, .processFile3 (hashFile n path).1, heq, by simpa using getElem?_set_append _ i _ _ [] heq, ?_⟩
      simp [Task.tokens] <;> omega
    · rename_i p heq
      split at hs
      · rename_i hcl
        simp only [Option.some.injEq] at hs
        subst hs
        exact ⟨_, _, heq, heq, rfl⟩
      · rename_i hcl
        simp only [Option.some.injEq] at hs
        subst hs
        refine ⟨_, .processFile4, heq, by simpa using getElem?_set_append _ i _ _ [] heq, ?_⟩
        simp [Task.tokens] <;> omega
    · rename_i heq
      split at hs
      · simp at hs
      · rename_i hlim
        simp only [Option.some.injEq] at hs
        subst hs
        refine ⟨_, .processFile5, heq, by simpa using getElem?_set_append _ i _ _ [] heq, ?_⟩
        simp [Task.tokens] <;> omega
    · rename_i heq
      split at hs
      · rename_i hz
        simp only [Option.some.injEq] at hs
        subst hs
        exact ⟨_, _, heq, heq, rfl⟩
      · rename_i hz
        simp only [Option.some.injEq] at hs
        subst hs
        refine ⟨_, .exited (.returned none), heq, by simpa using getElem?_set_append _ i _ _ [] heq, ?_⟩
        simp [Task.tokens] <;> omega
    · simp at hs

theorem total_le_total (f g : Task → Nat) (l : List Task) (h : ∀ t, f t ≤ g t) :
    total f l ≤ total g l := by
  induction l with
  | nil => simp [total]
  | cons x xs ih =>
    have := h x
    simp only [total, List.map_cons, List.sum_cons] at ih ⊢
    omega

theorem hashing_le_tokens (t : Task) : t.hashing ≤ t.tokens := by
  cases t <;> simp [Task.hashing, Task.tokens]

theorem fileOpen_le_hashing (t : Task) : t.fileOpen ≤ t.hashing := by
  cases t <;> simp [Task.fileOpen, Task.hashing]

/-- C10: for Limiter capacity `K`, in every reachable state of the step relation of the
bounded fan-out variant the number of tokens in `limit` is the number of tokens held by the
tasks and is at most `K`, so at most `K` Hasher tasks are inside `hashFile` and at most `K`
have a file open.  A task never holds more than one token; a Hasher inside `hashFile` (file
open or not, before a success or a failure) holds exactly one; a task that has returned
holds none, as before its acquisition.  Every step of a task changes the number of tokens in
`limit` by exactly the change of the number the task holds, and a Hasher enters `hashFile`
only by a step that takes a token while fewer than `K` are taken. -/
theorem limiter_bounds_token_holders (K : Nat) (root : Node) (s : State)
    (h : Reachable K root s) :
    total Task.tokens s.tasks = s.limit
    ∧ s.limit ≤ K
    ∧ total Task.hashing s.tasks ≤ K
    ∧ total Task.fileOpen s.tasks ≤ K
    ∧ (∀ t ∈ s.tasks, t.tokens ≤ 1 ∧ (t.hashing = 1 → t.tokens = 1)
        ∧ (t.fileOpen = 1 → t.hashing = 1) ∧ (t.running = 0 → t.tokens = 0))
    ∧ (∀ i s', stepTask K s i = some s' →
        ∃ t t', s.tasks[i]? = some t ∧ s'.tasks[i]? = some t'
          ∧ s'.limit + t.tokens = s.limit + t'.tokens)
    ∧ (∀ i path n s', s.tasks[i]? = some (Task.processFile0 path n) →
        stepTask K s i = some s' →
        s.limit < K ∧ s'.limit = s.limit + 1 ∧ s'.tasks[i]? = some (Task.processFile1 path n)) := by
  have hi := inv_reachable K root s h
  have h1 := total_le_total Task.hashing Task.tokens s.tasks hashing_le_tokens
  have h2 := total_le_total Task.fileOpen Task.hashing s.tasks fileOpen_le_hashing
  have h3 := hi.limit_eq
  have h4 := hi.limit_le
  refine ⟨h3.symm, h4, by omega, by omega, ?_, ?_, ?_⟩
  · intro t _
    cases t <;> simp [Task.tokens, Task.hashing, Task.fileOpen, Task.running]
  · intro i s' hs
    exact stepTask_tokens K s s' i hs
  · intro i path n s' heq hs
    by_cases hlt : s.limit < K
    · simp only [stepTask, heq, hlt, if_true] at hs
      split at hs
      · simp at hs
      · simp only [Option.some.injEq] at hs
        subst hs
        exact ⟨hlt, rfl, by simpa using getElem?_set_append _ i _ _ [] heq⟩
    · simp only [stepTask, heq, hlt, if_false] at hs
      split at hs <;> simp at hs

set_option maxRecDepth 100000 in
/-- C10 (witness): capacity 2 on `sampleTree`, after the schedule in which the root Walker
takes a token and starts the Hasher of `r/a`, which takes the second token and opens its
file: both tokens are taken, one Hasher is inside `hashFile` with its file open. -/
theorem limiter_bounds_token_holders_witness :
    Reachable 2 sampleTree
      (stateAfter 2 sampleTree
        [.main, .main, .task 0, .task 0, .task 0, .task 1, .task 1])
    ∧ total Task.tokens (stateAfter 2 sampleTree
        [.main, .main, .task 0, .task 0, .task 0, .task 1, .task 1]).tasks
      = (stateAfter 2 sampleTree
        [.main, .main, .task 0, .task 0, .task 0, .task 1, .task 1]).limit
    ∧ (stateAfter 2 sampleTree
        [.main, .main, .task 0, .task 0, .task 0, .task 1, .task 1]).limit ≤ 2
    ∧ (stateAfter 2 sampleTree
        [.main, .main, .task 0, .task 0, .task 0, .task 1, .task 1]).limit = 2
    ∧ total Task.fileOpen (stateAfter 2 sampleTree
        [.main, .main, .task 0, .task 0, .task 0, .task 1, .task 1]).tasks = 1 :=
  ⟨stateAfter_reachable 2 sampleTree _,
    (limiter_bounds_token_holders 2 sampleTree _ (stateAfter_reachable 2 sampleTree _)).1,
    (limiter_bounds_token_holders 2 sampleTree _ (stateAfter_reachable 2 sampleTree _)).2.1,
    by decide, by decide⟩

/-! ## The code at the failing inputs -/

set_option maxRecDepth 100000 in
/-- C3 (the code at the failing input): on `unreadableTree`, whose two regular files cannot
be hashed, `hashFile` returns the zero pair with an error for each of them, and
`processFile` sends that pair: every run that prints its report, under every capacity and
schedule, has received two empty pairs, has read back the map with the single key `""` and
the two paths `""`, and has printed a group of two empty paths; the run of the deterministic
scheduler with capacity 3 is such a run. -/
theorem failed_files_are_sent_as_empty_pairs :
    hashFile (.file "a" true 5 (.openFails Errno.EACCES)) "r/a"
      = ({ hash := "", path := "" }, some (GoError.PathError "open" "r/a" Errno.EACCES))
    ∧ hashFile (.file "c" true 5 (.readFails Errno.EIO)) "r/c"
      = ({ hash := "", path := "" }, some (GoError.PathError "read" "r/c" Errno.EIO))
    ∧ (∀ K s, Reachable K unreadableTree s → s.main = Main.done →
        s.pairs = [{ hash := "", path := "" }, { hash := "", path := "" }]
        ∧ s.r = some [("", ["", ""])]
        ∧ s.out = some [{ count := 2, files := ["", ""] }])
    ∧ Reachable 3 unreadableTree (exec 3 unreadableTree 40 init)
    ∧ (exec 3 unreadableTree 40 init).main = Main.done := by
  refine ⟨rfl, rfl, ?_, exec_reachable 3 unreadableTree 40 init (reachable_init 3 _),
    by decide⟩
  intro K s h hd
  obtain ⟨hp, hr, hout⟩ := done_pairs K unreadableTree s h hd
  have hw : walkerPairs unreadableTree.name unreadableTree
      = List.replicate 2 { hash := "", path := "" } := by decide
  rw [hw] at hp
  have hpairs : s.pairs = [{ hash := "", path := "" }, { hash := "", path := "" }] :=
    List.perm_replicate.mp hp
  rw [hpairs] at hr hout
  exact ⟨hpairs, by rw [hr]; decide, by rw [hout]; decide⟩

set_option maxRecDepth 100000 in
/-- C4 (the code at the failing input): on `brokenSubdirTree`, whose entries are in the order
of `readDirNames`, the Walker spawned for the subdirectory `r/s` gets the error of listing
`r/s/t` from `filepath.Walk` before it reaches `r/s/u`, and nobody reads what it returns: no
run aborts, under any capacity and schedule; every run that prints its report has grouped
the paths `r/a` and `r/c` only, although `r/s/u` is a regular non-empty file of the tree;
the run of the deterministic scheduler with capacity 3 prints the group of `r/a` and
`r/c`. -/
theorem subdirectory_error_does_not_abort :
    sortedTree brokenSubdirTree = true
    ∧ (Walk (visit "r/s") "r/s" []
        (.dir "s" none
          [.dir "t" (some Errno.EACCES) [], .file "u" true 5 (.content [1, 2, 3, 4, 5])])).2
      = Outcome.returned (some (GoError.PathError "open" "r/s/t" Errno.EACCES))
    ∧ regularFiles brokenSubdirTree.name brokenSubdirTree = ["r/a", "r/c", "r/s/u"]
    ∧ (∀ K s, Reachable K brokenSubdirTree s → ∀ e, s.main ≠ Main.fatal e)
    ∧ (∀ K s, Reachable K brokenSubdirTree s → s.main = Main.done →
        ∃ r, s.r = some r ∧ s.out = some (report r) ∧ (allPaths r).Perm ["r/a", "r/c"])
    ∧ Reachable 3 brokenSubdirTree (exec 3 brokenSubdirTree 60 init)
    ∧ (exec 3 brokenSubdirTree 60 init).main = Main.done
    ∧ (exec 3 brokenSubdirTree 60 init).out = some [{ count := 2, files := ["r/a", "r/c"] }] := by
  refine ⟨by decide, by decide, by decide, ?_, ?_,
    exec_reachable 3 brokenSubdirTree 60 init (reachable_init 3 _), by decide, by decide⟩
  · intro K s h e
    exact (inv2_reachable K brokenSubdirTree s h).not_fatal (by decide) e
  · intro K s h hd
    obtain ⟨hp, hr, hout⟩ := done_pairs K brokenSubdirTree s h hd
    refine ⟨_, hr, hout, (allPaths_collectHashes s.pairs).trans ?_⟩
    have hw : (walkerPairs brokenSubdirTree.name brokenSubdirTree).map pair.path
        = ["r/a", "r/c"] := by decide
    rw [← hw]
    exact hp.map _

set_option maxRecDepth 100000 in
/-- C2 (counterexample): two trees in which every file can be opened and read, with entries in
the order of `readDirNames`.  On `unlistableDirTree` the root Walker gets the error of listing
`r/s`, so no run under any capacity and schedule prints a report, and the run of the
deterministic scheduler ends in `log.Fatalf`: the regular non-empty files `r/a` and `r/c`
are in no group.  On `brokenSubdirTree` a run reaches its report, and the groups of every
run that does hold the paths `r/a` and `r/c` only, so the regular non-empty file `r/s/u` is
in no group. -/
theorem readable_files_missing_from_groups :
    (filesReadable unlistableDirTree = true
      ∧ sortedTree unlistableDirTree = true
      ∧ regularFiles unlistableDirTree.name unlistableDirTree = ["r/a", "r/c"]
      ∧ (∀ K s, Reachable K unlistableDirTree s → s.main ≠ Main.done)
      ∧ Reachable 3 unlistableDirTree (exec 3 unlistableDirTree 60 init)
      ∧ (exec 3 unlistableDirTree 60 init).main
          = Main.fatal (GoError.PathError "open" "r/s" Errno.EACCES)
      ∧ (exec 3 unlistableDirTree 60 init).out = none)
    ∧ (filesReadable brokenSubdirTree = true
      ∧ sortedTree brokenSubdirTree = true
      ∧ "r/s/u" ∈ regularFiles brokenSubdirTree.name brokenSubdirTree
      ∧ (∀ K s, Reachable K brokenSubdirTree s → s.main = Main.done →
          ∃ r, s.r = some r ∧ "r/s/u" ∉ allPaths r)
      ∧ Reachable 3 brokenSubdirTree (exec 3 brokenSubdirTree 60 init)
      ∧ (exec 3 brokenSubdirTree 60 init).main = Main.done
      ∧ (exec 3 brokenSubdirTree 60 init).r.map allPaths = some ["r/a", "r/c"]) := by
  refine ⟨⟨by decide, by decide, by decide, ?_,
      exec_reachable 3 unlistableDirTree 60 init (reachable_init 3 _), by decide, by decide⟩,
    ⟨by decide, by decide, by decide, ?_,
      exec_reachable 3 brokenSubdirTree 60 init (reachable_init 3 _), by decide, by decide⟩⟩
  · intro K s h hd
    have hw := (inv2_reachable K unlistableDirTree s h).walked (Or.inr (by rw [hd]; rfl))
    have hne : (rootSpawns unlistableDirTree.name unlistableDirTree).2
        ≠ Outcome.returned none := by decide
    exact hne hw
  · intro K s h hd
    obtain ⟨hp, hr, _⟩ := done_pairs K brokenSubdirTree s h hd
    refine ⟨_, hr, ?_⟩
    intro hmem
    have hperm := (allPaths_collectHashes s.pairs).trans (hp.map pair.path)
    have hw : (walkerPairs brokenSubdirTree.name brokenSubdirTree).map pair.path
        = ["r/a", "r/c"] := by decide
    rw [hw] at hperm
    have := hperm.mem_iff.mp hmem
    revert this
    decide

end Concurrent03

end FileDup
